import Mathlib

/-!
Verification of the recursive injection-aware format driver of the `pruner`
repository, against its natural-language specification.

Byte buffers are modelled as `List Nat` (each element one byte).  Rust
`String` values are modelled as `List Nat` of Unicode scalar values; the
conversions `String::from_utf8` / `String::into_bytes` are modelled by an
explicit UTF-8 codec (`utf8Decode` / `utf8Encode`).

Each definition translates one function of the source tree (mainly
`src/commands/format.rs` and `src/api/format.rs`); external collaborators
(tree-sitter extraction, subprocesses, the file system) are supplied as
oracles bundled in a `FormatWorld` / `ApiWorld` record, and the recursion
of `format_recursive` is made total with an explicit fuel argument.
-/

/-- Errors surfaced by the modelled core.  The Rust code carries `anyhow`
error chains; the model only distinguishes the kinds that matter. -/
inductive FormatError where
  | utf8
  | outOfFuel
  | formatterFailed
  | extractFailed
  | ioError
deriving DecidableEq, Repr

instance {ε α : Type} [DecidableEq ε] [DecidableEq α] : DecidableEq (Except ε α) := fun a b =>
  match a, b with
  | .ok x, .ok y =>
    if h : x = y then isTrue (by rw [h]) else isFalse (by intro hc; cases hc; exact h rfl)
  | .ok _, .error _ => isFalse (by intro hc; cases hc)
  | .error _, .ok _ => isFalse (by intro hc; cases hc)
  | .error e, .error f =>
    if h : e = f then isTrue (by rw [h]) else isFalse (by intro hc; cases hc; exact h rfl)

/-! ## Text utilities (`src/commands/format.rs`) -/

/-- `offset_lines` loop body: walk the buffer; after every `\n` whose next
byte exists and is neither `\n` (10) nor `\r` (13), insert `offset` space
bytes (32).  Translates the `while` loop of `offset_lines`. -/
def offsetGo (offset : Nat) : List Nat → List Nat
  | [] => []
  | [b] => [b]
  | b :: c :: rest =>
    if b = 10 ∧ ¬(c = 10 ∨ c = 13) then
      b :: (List.replicate offset 32 ++ offsetGo offset (c :: rest))
    else
      b :: offsetGo offset (c :: rest)

/-- `offset_lines(data, offset)` from `src/commands/format.rs`. -/
def offsetLines (data : List Nat) (offset : Nat) : List Nat :=
  if offset = 0 then data else offsetGo offset data

/-- `trim_trailing_whitespace(data, preserve_newline)`: pop trailing `\n`
and `\r` bytes; if any were removed and `preserve_newline` holds, append a
single `\n`. -/
def trimTrailingWhitespace (data : List Nat) (preserveNewline : Bool) : List Nat :=
  let stripped := (data.reverse.dropWhile (fun b => b == 10 || b == 13)).reverse
  if preserveNewline && decide (stripped ≠ data) then stripped ++ [10] else stripped

/-- `column_for_byte(source, byte_index)`: byte column of `byte_index`,
i.e. distance from the last `\n` strictly before it (clamped to the
buffer length). -/
def columnForByte (source : List Nat) (byteIndex : Nat) : Nat :=
  let target := min byteIndex source.length
  let lineStart :=
    match (source.take target).reverse.findIdx? (fun b => b == 10) with
    | some k => target - k
    | none => 0
  target - lineStart

/-- The Unicode `White_Space` property, as used by Rust `char::is_whitespace`
inside `str::trim`. -/
def isRustWhitespace (c : Nat) : Bool :=
  c == 9 || c == 10 || c == 11 || c == 12 || c == 13 || c == 32 ||
  c == 0x85 || c == 0xA0 || c == 0x1680 ||
  (0x2000 ≤ c && c ≤ 0x200A) ||
  c == 0x2028 || c == 0x2029 || c == 0x202F || c == 0x205F || c == 0x3000

/-- Rust `str::lines`: split at `\n`, drop a final empty segment, and strip
one trailing `\r` from each line. -/
def rustLines (s : List Nat) : List (List Nat) :=
  let segs := s.splitOn 10
  let segs := if segs.getLast? = some [] then segs.dropLast else segs
  segs.map (fun l => if l.getLast? = some 13 then l.dropLast else l)

/-- `min_leading_indent(text)`: minimum count of leading spaces over all
non-blank lines (blank = whitespace-only after `str::trim`); 0 if there is
no non-blank line. -/
def minLeadingIndent (text : List Nat) : Nat :=
  let folded := (rustLines text).foldl
    (fun acc line =>
      if line.all isRustWhitespace then acc
      else
        let indent := (line.takeWhile (fun ch => ch == 32)).length
        match acc with
        | none => some indent
        | some current => some (min current indent))
    none
  folded.getD 0

/-- Rust `str::split_inclusive('\n')` on the scalar-value list: segments end
with the `\n` that produced them; no empty trailing segment. -/
def splitInclusiveNL : List Nat → List (List Nat)
  | [] => []
  | b :: rest =>
    if b = 10 then [10] :: splitInclusiveNL rest
    else
      match splitInclusiveNL rest with
      | [] => [[b]]
      | seg :: segs => (b :: seg) :: segs

/-- The per-segment body of `strip_leading_indent`: split the segment into
line and newline terminator, count leading spaces, and drop up to `indent`
of them. -/
def stripSegment (indent : Nat) (segment : List Nat) : List Nat :=
  let line := if segment.getLast? = some 10 then segment.dropLast else segment
  let newline : List Nat := if segment.getLast? = some 10 then [10] else []
  let leadingSpaces := (line.takeWhile (fun ch => ch == 32)).length
  let trimCount := min indent leadingSpaces
  line.drop trimCount ++ newline

/-- `strip_leading_indent(text, indent)`: remove up to `indent` leading
spaces from every line (`split_inclusive('\n')` segments), keeping the
newline terminators. -/
def stripLeadingIndent (text : List Nat) (indent : Nat) : List Nat :=
  if indent = 0 then text
  else ((splitInclusiveNL text).map (stripSegment indent)).flatten

/-! ## Escape handling (`src/commands/format.rs`) -/

/-- UTF-8 byte length of one Unicode scalar value (Rust `String::len`
counts bytes). -/
def byteLenChar (c : Nat) : Nat :=
  if c < 0x80 then 1 else if c < 0x800 then 2 else if c < 0x10000 then 3 else 4

/-- UTF-8 byte length of a string given as scalar values. -/
def strByteLen (s : List Nat) : Nat := (s.map byteLenChar).sum

/-- Strict lexicographic order on strings (Rust `str::cmp`; on valid UTF-8,
byte order and scalar-value order agree). -/
def lexLt : List Nat → List Nat → Bool
  | [], [] => false
  | [], _ :: _ => true
  | _ :: _, [] => false
  | x :: xs, y :: ys => x < y || (x == y && lexLt xs ys)

/-- The sort order of `sort_escape_chars`: descending byte length, ties
broken by ascending lexicographic order. -/
def escLe (a b : List Nat) : Prop :=
  strByteLen b < strByteLen a ∨ (strByteLen a = strByteLen b ∧ ¬ lexLt b a = true)

instance : DecidableRel escLe := fun a b => by
  unfold escLe; infer_instance

/-- `sort_escape_chars`: collect the set and sort it by `escLe`
(descending length, lexicographic tie-break). -/
def sortEscapeChars (escapeChars : List (List Nat)) : List (List Nat) :=
  List.insertionSort escLe escapeChars

/-- `replaceGoF pat rep fuel s`: Rust `str::replace` for a non-empty
pattern — leftmost, non-overlapping rewriting of `pat` to `rep`.  `fuel`
bounds the recursion; any `fuel ≥ s.length` gives the replace semantics. -/
def replaceGoF (pat rep : List Nat) : Nat → List Nat → List Nat
  | 0, s => s
  | _ + 1, [] => []
  | fuel + 1, ch :: rest =>
    if pat.isPrefixOf (ch :: rest) then
      rep ++ replaceGoF pat rep fuel (List.drop (pat.length - 1) rest)
    else
      ch :: replaceGoF pat rep fuel rest

/-- Rust `str::replace`.  An empty pattern matches at every character
boundary (as in Rust); a non-empty pattern is rewritten leftmost,
non-overlapping. -/
def replaceAll (s pat rep : List Nat) : List Nat :=
  if pat.isEmpty then rep ++ (s.map (fun ch => ch :: rep)).flatten
  else replaceGoF pat rep s.length s

/-- `unescape_text(text, chars)`: for each escape char `c` in order,
replace `\c` by `c`. -/
def unescapeText (text : List Nat) (escapeChars : List (List Nat)) : List Nat :=
  escapeChars.foldl (fun result c => replaceAll result (92 :: c) c) text

/-- `escape_text(text, chars)`: for each escape char `c` in order, replace
`c` by `\c`. -/
def escapeText (text : List Nat) (escapeChars : List (List Nat)) : List Nat :=
  escapeChars.foldl (fun result c => replaceAll result c (92 :: c)) text

/-! ## UTF-8 codec (Rust `String::from_utf8` / `String::into_bytes`) -/

/-- Encode one Unicode scalar value to UTF-8 bytes. -/
def utf8EncodeChar (c : Nat) : List Nat :=
  if c < 0x80 then [c]
  else if c < 0x800 then [0xC0 + c / 64, 0x80 + c % 64]
  else if c < 0x10000 then [0xE0 + c / 4096, 0x80 + c / 64 % 64, 0x80 + c % 64]
  else [0xF0 + c / 262144, 0x80 + c / 4096 % 64, 0x80 + c / 64 % 64, 0x80 + c % 64]

/-- Encode a string (scalar values) to UTF-8 bytes (`String::into_bytes`). -/
def utf8Encode (s : List Nat) : List Nat := (s.map utf8EncodeChar).flatten

/-- Is `b` a UTF-8 continuation byte? -/
def isCont (b : Nat) : Bool := 0x80 ≤ b && b < 0xC0

/-- Decode UTF-8 bytes to scalar values, rejecting exactly the sequences
Rust's `String::from_utf8` rejects (overlongs, surrogates, values beyond
U+10FFFF, truncated sequences). -/
def utf8Decode : List Nat → Option (List Nat)
  | [] => some []
  | b0 :: rest =>
    if b0 < 0x80 then (utf8Decode rest).map (b0 :: ·)
    else if b0 < 0xC2 then none
    else if b0 < 0xE0 then
      match rest with
      | b1 :: rest2 =>
        if isCont b1 then (utf8Decode rest2).map (((b0 - 0xC0) * 64 + (b1 - 0x80)) :: ·)
        else none
      | [] => none
    else if b0 < 0xF0 then
      match rest with
      | b1 :: b2 :: rest3 =>
        let lo := if b0 = 0xE0 then 0xA0 else 0x80
        let hi := if b0 = 0xED then 0x9F else 0xBF
        if (lo ≤ b1 && b1 ≤ hi) && isCont b2 then
          (utf8Decode rest3).map
            (((b0 - 0xE0) * 4096 + (b1 - 0x80) * 64 + (b2 - 0x80)) :: ·)
        else none
      | _ => none
    else if b0 < 0xF5 then
      match rest with
      | b1 :: b2 :: b3 :: rest4 =>
        let lo := if b0 = 0xF0 then 0x90 else 0x80
        let hi := if b0 = 0xF4 then 0x8F else 0xBF
        if (lo ≤ b1 && b1 ≤ hi) && isCont b2 && isCont b3 then
          (utf8Decode rest4).map
            (((b0 - 0xF0) * 262144 + (b1 - 0x80) * 4096 + (b2 - 0x80) * 64 + (b3 - 0x80)) :: ·)
        else none
      | _ => none
    else none

/-! ## Data model of the driver (`src/commands/format.rs`, `src/config.rs`) -/

/-- `FormatOpts` (`src/api/format.rs`). -/
structure FormatOpts where
  printwidth : Nat
  language : String
deriving DecidableEq, Repr

/-- Byte range of an injected region. -/
structure ByteRange where
  startByte : Nat
  endByte : Nat
deriving DecidableEq, Repr

/-- `InjectionOpts`: the escape-character set attached to a region by the
grammar query (a set of strings; strings as scalar-value lists). -/
structure InjectionOpts where
  escapeChars : List (List Nat)
deriving DecidableEq, Repr

/-- `InjectedRegion` (`src/api/injections.rs`, consumed by the driver). -/
structure InjectedRegion where
  range : ByteRange
  lang : String
  opts : InjectionOpts
deriving DecidableEq, Repr

/-- `FormatterSpec` (`src/config.rs`). -/
structure FormatterSpec where
  cmd : String
  args : List String
  stdin : Option Bool
  failOnStderr : Option Bool
deriving DecidableEq, Repr

/-- The read-only collaborators of one `format_recursive` call tree:
grammar registry membership, `LanguageFormatters`, `FormatterSpecs`, the
formatter dispatcher (`api::format::format`, a subprocess, modelled as an
oracle) and the injection extractor (`api::injections`, modelled as an
oracle keyed by the grammar's language). -/
structure FormatWorld where
  grammars : String → Bool
  languages : String → Option (List String)
  formatters : String → Option FormatterSpec
  runFormatter : FormatterSpec → List Nat → FormatOpts → Except FormatError (List Nat)
  extract : String → List Nat → Except FormatError (List InjectedRegion)

/-- `&formatted_result[start..end]`: the byte slice of a region. -/
def sliceBytes (buf : List Nat) (s e : Nat) : List Nat := (buf.take e).drop s

/-- The region sort of the driver: descending `start_byte`
(`sort_by(|a, b| b.range.start_byte.cmp(&a.range.start_byte))`). -/
def regionGe (a b : InjectedRegion) : Prop := b.range.startByte ≤ a.range.startByte

instance : DecidableRel regionGe := fun a b => by unfold regionGe; infer_instance

/-- Sort regions by descending `start_byte`. -/
def sortRegionsDesc (regions : List InjectedRegion) : List InjectedRegion :=
  List.insertionSort regionGe regions

/-- The same descending sort applied to per-region results before splicing. -/
def resultGe (a b : InjectedRegion × List Nat) : Prop :=
  b.1.range.startByte ≤ a.1.range.startByte

instance : DecidableRel resultGe := fun a b => by unfold resultGe; infer_instance

/-- `Vec::splice(start..end, replacement)` on the working buffer. -/
def spliceBytes (buf : List Nat) (s e : Nat) (rep : List Nat) : List Nat :=
  buf.take s ++ rep ++ buf.drop e

/-- The final splice pass: sort results by descending `start_byte`, then
splice each into the working buffer. -/
def spliceRegions (buf : List Nat) (results : List (InjectedRegion × List Nat)) : List Nat :=
  (List.insertionSort resultGe results).foldl
    (fun acc rv => spliceBytes acc rv.1.range.startByte rv.1.range.endByte rv.2) buf

/-- Collect a list of fallible results, returning the first error in list
order (the `for result in formatted_regions { push(result?) }` loop). -/
def collectExcept {ε α : Type} : List (Except ε α) → Except ε (List α)
  | [] => .ok []
  | x :: rest =>
    match x with
    | .error e => .error e
    | .ok v => (collectExcept rest).map (v :: ·)

/-- Root-format step of `format_recursive` (lines 160–168): if `skip_root`
is false and the language has a formatter chain whose first entry is
registered, dispatch it; otherwise keep the buffer. -/
def rootFormat (w : FormatWorld) (source : List Nat) (opts : FormatOpts)
    (skipRoot : Bool) : Except FormatError (List Nat) :=
  if skipRoot then .ok source
  else
    match w.languages opts.language with
    | none => .ok source
    | some specs =>
      match specs.head? with
      | none => .ok source
      | some name =>
        match w.formatters name with
        | none => .ok source
        | some spec => w.runFormatter spec source opts

/-- Adjusted print width for a region:
`opts.printwidth.saturating_sub(indent).max(1)` (lines 200 and 207). -/
def childPrintWidth (printwidth indent : Nat) : Nat := Nat.max (printwidth - indent) 1

/-- Indent discovery (lines 187–197): the byte column of the region start
in the outer `source`; if that is 0, fall back to the minimum leading
indent of the (unescaped) region content. -/
def regionIndent (source : List Nat) (startByte : Nat) (unescaped : List Nat) : Nat :=
  let indent := columnForByte source startByte
  if indent > 0 then indent else minLeadingIndent unescaped

/-- Per-region transform pipeline (the closure at lines 177–219): slice,
unescape, dedent, recurse (via `recur`), re-escape, trim trailing
whitespace, re-indent.  `recur` is the recursive driver call made for the
region (`format_recursive` with a fresh parser and `skip_root = false`). -/
def processRegion (recur : List Nat → FormatOpts → Except FormatError (List Nat))
    (source formattedResult : List Nat) (printwidth : Nat) (region : InjectedRegion) :
    Except FormatError (List Nat) :=
  let sourceSlice := sliceBytes formattedResult region.range.startByte region.range.endByte
  let escapeChars := sortEscapeChars region.opts.escapeChars
  match utf8Decode sourceSlice with
  | none => .error .utf8
  | some sourceStr =>
    let unescaped := if escapeChars.isEmpty then sourceStr else unescapeText sourceStr escapeChars
    let indent := regionIndent source region.range.startByte unescaped
    let normalized := stripLeadingIndent unescaped indent
    let unescapedSource := utf8Encode normalized
    match recur unescapedSource ⟨childPrintWidth printwidth indent, region.lang⟩ with
    | .error e => .error e
    | .ok sub =>
      match (if escapeChars.isEmpty then some sub
             else (utf8Decode sub).map (fun s => utf8Encode (escapeText s escapeChars))) with
      | none => .error .utf8
      | some escaped =>
        let hasTrailingNewline := sourceSlice.getLast? == some 10
        let trimmed := trimTrailingWhitespace escaped hasTrailingNewline
        .ok (offsetLines trimmed indent)

/-- `format_recursive` (lines 147–237).  `fuel` bounds the recursion depth
(the Rust recursion terminates because regions shrink; the model makes
that explicit). -/
def formatRecursive (w : FormatWorld) : Nat → List Nat → FormatOpts → Bool →
    Except FormatError (List Nat)
  | 0, _, _, _ => .error .outOfFuel
  | fuel + 1, source, opts, skipRoot =>
    if w.grammars opts.language = false then .ok source
    else
      match rootFormat w source opts skipRoot with
      | .error e => .error e
      | .ok formattedResult =>
        match w.extract opts.language formattedResult with
        | .error e => .error e
        | .ok injectedRegions =>
          let sorted := sortRegionsDesc injectedRegions
          let formattedRegions := sorted.map (fun region =>
            (processRegion (fun src o => formatRecursive w fuel src o false)
              source formattedResult opts.printwidth region).map (fun v => (region, v)))
          match collectExcept formattedRegions with
          | .error e => .error e
          | .ok regionResults => .ok (spliceRegions formattedResult regionResults)

/-! ## Formatter dispatcher (`src/api/format.rs`) -/

/-- A file-system state: an association of paths to byte contents. -/
def FsState : Type := List (String × List Nat)

instance : DecidableEq FsState := by unfold FsState; infer_instance

/-- Read a file (`fs::read`). -/
def fsRead (fs : FsState) (p : String) : Option (List Nat) :=
  (fs.find? (fun e => e.1 == p)).map (·.2)

/-- Write a file, replacing previous content (`fs::write`). -/
def fsWrite (fs : FsState) (p : String) (c : List Nat) : FsState :=
  (p, c) :: fs.filter (fun e => e.1 ≠ p)

/-- Remove a file (`fs::remove_file`; the driver ignores its result). -/
def fsRemove (fs : FsState) (p : String) : FsState :=
  fs.filter (fun e => e.1 ≠ p)

/-- Output of a finished subprocess (`std::process::Output`). -/
structure ProcOutput where
  statusSuccess : Bool
  stdout : List Nat
  stderr : List Nat
deriving DecidableEq, Repr

/-- Oracles for the effects of `api::format::format`: the process id and
clock reading used for the temp-file name, whether `fs::write` and the
stdin write succeed, and the spawned command (which may itself transform
the file system, e.g. rewrite the temp file in place). -/
structure ApiWorld where
  tempDir : String
  pid : Nat
  nanos : Nat
  writeOk : Bool
  stdinWriteOk : Bool
  spawn : String → List String → List Nat → FsState →
    Except FormatError (FsState × ProcOutput)

/-- `unique_temp_file`: temp dir plus `prune-format-{pid}-{nanos}`. -/
def uniqueTempFile (w : ApiWorld) : String :=
  w.tempDir ++ "/prune-format-" ++ toString w.pid ++ "-" ++ toString w.nanos

/-- Argument templating: substitute `$textwidth`, `$language`, `$file`. -/
def templateArgs (spec : FormatterSpec) (opts : FormatOpts) (fileVar : String) :
    List String :=
  spec.args.map (fun arg =>
    ((arg.replace "$textwidth" (toString opts.printwidth)).replace
      "$language" opts.language).replace "$file" fileVar)

/-- `api::format::format`: dispatch one formatter invocation.  In stdin
mode the source is piped and stdout captured; in file mode the source is
written to a unique temp file whose path replaces `$file`, the file is
read back as the result, and the temp file is removed after a fully
successful run (the `let _ = fs::remove_file(path)` at the end of the
function).  Returns the resulting file system and the outcome. -/
def apiFormat (w : ApiWorld) (spec : FormatterSpec) (source : List Nat)
    (opts : FormatOpts) (fs0 : FsState) : FsState × Except FormatError (List Nat) :=
  let useStdin := spec.stdin.getD true
  if useStdin = false ∧ w.writeOk = false then (fs0, .error .ioError)
  else
    let tempFile : Option String := if useStdin then none else some (uniqueTempFile w)
    let fs1 := match tempFile with
      | some p => fsWrite fs0 p source
      | none => fs0
    let fileVar := tempFile.getD ""
    let args := templateArgs spec opts fileVar
    match w.spawn spec.cmd args (if useStdin then source else []) fs1 with
    | .error e => (fs1, .error e)
    | .ok (fs2, output) =>
      if useStdin && !w.stdinWriteOk then (fs2, .error .ioError)
      else if !output.statusSuccess then (fs2, .error .formatterFailed)
      else if spec.failOnStderr.getD false && !output.stderr.isEmpty then
        (fs2, .error .formatterFailed)
      else
        match tempFile with
        | none => (fs2, .ok output.stdout)
        | some p =>
          match fsRead fs2 p with
          | none => (fs2, .error .ioError)
          | some contents => (fsRemove fs2 p, .ok contents)

/-! ## Auxiliary definitions used by the theorems -/

/-- Pair each element with its successor (if any). -/
def withNext : List Nat → List (Nat × Option Nat)
  | [] => []
  | [b] => [(b, none)]
  | b :: c :: rest => (b, some c) :: withNext (c :: rest)

/-- Statement-side rendering of the spec sentence for `offset_lines`:
insert exactly `n` space bytes after each `\n` whose next byte exists and
is neither `\n` nor `\r`; all other bytes are copied unchanged. -/
def offsetLinesSpec (data : List Nat) (n : Nat) : List Nat :=
  ((withNext data).map (fun bn =>
    match bn.2 with
    | some nb => if bn.1 = 10 ∧ nb ≠ 10 ∧ nb ≠ 13 then bn.1 :: List.replicate n 32 else [bn.1]
    | none => [bn.1])).flatten

/-- The unescaped content of a region (pipeline prefix of `processRegion`,
lines 178–186); `[]` when the slice is not valid UTF-8. -/
def regionUnescaped (formattedResult : List Nat) (region : InjectedRegion) : List Nat :=
  match utf8Decode (sliceBytes formattedResult region.range.startByte region.range.endByte) with
  | none => []
  | some s =>
    if (sortEscapeChars region.opts.escapeChars).isEmpty then s
    else unescapeText s (sortEscapeChars region.opts.escapeChars)

/-- The indent a region is dedented by (lines 187–197). -/
def regionIndentOf (source formattedResult : List Nat) (region : InjectedRegion) : Nat :=
  regionIndent source region.range.startByte (regionUnescaped formattedResult region)

/-- The trailing run of newline (10) and carriage-return (13) bytes. -/
def trailingNlRun (l : List Nat) : List Nat :=
  l.reverse.takeWhile (fun b => b == 10 || b == 13)

/-- A world with no grammars at all (used for concrete evaluations). -/
def wTriv : FormatWorld where
  grammars := fun _ => false
  languages := fun _ => none
  formatters := fun _ => none
  runFormatter := fun _ _ _ => .error .formatterFailed
  extract := fun _ _ => .ok []

/-- World used to witness C9: one region whose sub-language is unknown. -/
def wC9 : FormatWorld where
  grammars := fun l => l == "host"
  languages := fun _ => none
  formatters := fun _ => none
  runFormatter := fun _ _ _ => .error .formatterFailed
  extract := fun _ buf => .ok [⟨⟨0, buf.length⟩, "guest", ⟨[]⟩⟩]

/-- World used to witness C10: one region over a non-UTF-8 byte, with an
empty escape set. -/
def wC10 : FormatWorld where
  grammars := fun l => l == "host"
  languages := fun _ => none
  formatters := fun _ => none
  runFormatter := fun _ _ _ => .error .formatterFailed
  extract := fun _ _ => .ok [⟨⟨0, 1⟩, "guest", ⟨[]⟩⟩]

/-- World used by the C5 counterexample: the guest language has a
formatter whose output has no trailing newline. -/
def wC5 : FormatWorld where
  grammars := fun l => l == "guest"
  languages := fun l => if l == "guest" then some ["f"] else none
  formatters := fun n => if n == "f" then some ⟨"fmt", [], some true, none⟩ else none
  runFormatter := fun _ _ _ => .ok [97, 98, 99]
  extract := fun _ _ => .ok []

/-- Well-formedness of a `split_inclusive('\n')` segmentation: every
segment is non-empty, contains `\n` only in final position, and every
segment except the last ends with `\n`. -/
def segsWF : List (List Nat) → Prop
  | [] => True
  | seg :: rest =>
    seg ≠ [] ∧ 10 ∉ seg.dropLast ∧ (rest = [] ∨ seg.getLast? = some 10) ∧ segsWF rest

/-- Per-segment action of `offset_lines`: a segment that does not start
with `\n` or `\r` gets `n` spaces prepended. -/
def offsetSeg (n : Nat) (seg : List Nat) : List Nat :=
  if seg.head? = some 10 ∨ seg.head? = some 13 then seg else List.replicate n 32 ++ seg

/-- `offset_lines` viewed per segment: the first segment is untouched;
each later segment is re-indented by `offsetSeg`. -/
def offsetSegs (n : Nat) : List (List Nat) → List (List Nat)
  | [] => []
  | first :: rest => first :: rest.map (offsetSeg n)

/-- The precondition of the re-indent/dedent round trip: no line of the
text begins with a space character. -/
def noLineLeadingSpace (t : List Nat) : Prop :=
  ∀ seg ∈ splitInclusiveNL t, seg.head? ≠ some 32

instance : DecidablePred noLineLeadingSpace := fun t => by
  unfold noLineLeadingSpace; infer_instance

/-- A file-mode formatter spec with no arguments. -/
def specC4 : FormatterSpec := ⟨"fmt", [], some false, none⟩

/-- World for the C4 counterexample: spawning the formatter fails. -/
def wC4 : ApiWorld where
  tempDir := "tmp"
  pid := 1
  nanos := 2
  writeOk := true
  stdinWriteOk := true
  spawn := fun _ _ _ _ => .error .ioError

/-- World for the C4 witness: the spawn succeeds and leaves the file
system unchanged. -/
def wC4ok : ApiWorld where
  tempDir := "tmp"
  pid := 1
  nanos := 2
  writeOk := true
  stdinWriteOk := true
  spawn := fun _ _ _ fs => .ok (fs, ⟨true, [], []⟩)

/-- Single-pass form of one `unescape_text` step for a one-character
escape char `c`: rewrite `\c` to `c`, leftmost, non-overlapping. -/
def unescChar (c : Nat) : List Nat → List Nat
  | [] => []
  | [x] => [x]
  | x :: y :: rest =>
    if x = 92 ∧ y = c then c :: unescChar c rest else x :: unescChar c (y :: rest)

/-- Single-pass form of one `escape_text` step for a one-character escape
char `c`: rewrite `c` to `\c`. -/
def escChar (c : Nat) (s : List Nat) : List Nat :=
  (s.map (fun x => if x = c then [92, c] else [x])).flatten

/-- `escWF c prev s`: every occurrence of the character `c` in `s` is
immediately preceded by a backslash (`prev` is the character just before
`s`, if any). -/
def escWF (c : Nat) : Option Nat → List Nat → Bool
  | _, [] => true
  | prev, x :: rest =>
    (decide (x ≠ c) || decide (prev = some 92)) && escWF c (some x) rest

/-- `c` occurs as a substring of `s` at position `i`. -/
def occursAt (s c : List Nat) (i : Nat) : Bool := c.isPrefixOf (s.drop i)

/-- The extractor precondition of the escape round trip: every occurrence
of every escape char of `C` in `s` is immediately preceded by a
backslash. -/
def escapedPre (s : List Nat) (C : List (List Nat)) : Bool :=
  (List.range s.length).all (fun i => C.all (fun c =>
    !(occursAt s c i) || (decide (0 < i) && (s[i - 1]? == some 92))))

/-! # Theorems -/

/-- Grammar lookup failure returns the source unchanged (line 154–156),
for any fuel, buffer, print width, `skip_root` and registries. -/
theorem formatRecursive_unknown_grammar (w : FormatWorld) (fuel : Nat) (source : List Nat)
    (opts : FormatOpts) (skipRoot : Bool) (h : w.grammars opts.language = false) :
    formatRecursive w (fuel + 1) source opts skipRoot = .ok source := by
  simp [formatRecursive, h]

/-- C7: if the grammar registry has no entry for `opts.language`,
`format_recursive` returns successfully with output byte-for-byte equal to
its input, regardless of `skip_root` and of the formatter registries. -/
theorem c7_unknown_root_language (w : FormatWorld) (fuel : Nat) (source : List Nat)
    (opts : FormatOpts) (skipRoot : Bool) (h : w.grammars opts.language = false) :
    formatRecursive w (fuel + 1) source opts skipRoot = .ok source :=
  formatRecursive_unknown_grammar w fuel source opts skipRoot h

/-- Witness for C7 at a concrete world and buffer. -/
theorem c7_unknown_root_language_witness :
    formatRecursive wTriv 1 [97, 98] ⟨80, "nolang"⟩ false = .ok [97, 98] :=
  c7_unknown_root_language wTriv 0 [97, 98] ⟨80, "nolang"⟩ false rfl

/-- `processRegion` consults its recursive driver only at the adjusted
print width `childPrintWidth printwidth indent` of the region. -/
theorem processRegion_recur_width (recur recur' : List Nat → FormatOpts →
      Except FormatError (List Nat)) (source fmt : List Nat) (pw : Nat)
    (region : InjectedRegion)
    (h : ∀ src lang, recur src ⟨childPrintWidth pw (regionIndentOf source fmt region), lang⟩ =
      recur' src ⟨childPrintWidth pw (regionIndentOf source fmt region), lang⟩) :
    processRegion recur source fmt pw region = processRegion recur' source fmt pw region := by
  unfold processRegion
  cases hd : utf8Decode (sliceBytes fmt region.range.startByte region.range.endByte) with
  | none => simp only [hd]
  | some s =>
    have hind : regionIndentOf source fmt region =
        regionIndent source region.range.startByte
          (if (sortEscapeChars region.opts.escapeChars).isEmpty then s
           else unescapeText s (sortEscapeChars region.opts.escapeChars)) := by
      unfold regionIndentOf regionUnescaped
      rw [hd]
    simp only [hd]
    rw [← hind, h]

/-- C6: the recursive child call is made at print width
`max(1, printwidth - indent)` (saturating subtraction on `Nat`), so the
child width is 1 whenever `printwidth - indent ≤ 0`, never 0. -/
theorem c6_adjusted_print_width :
    (∀ pw indent, childPrintWidth pw indent = Nat.max 1 (pw - indent)) ∧
    (∀ pw indent, pw ≤ indent → childPrintWidth pw indent = 1) ∧
    (∀ recur recur' source fmt pw region,
      (∀ src lang,
        recur src ⟨childPrintWidth pw (regionIndentOf source fmt region), lang⟩ =
        recur' src ⟨childPrintWidth pw (regionIndentOf source fmt region), lang⟩) →
      processRegion recur source fmt pw region = processRegion recur' source fmt pw region) := by
  refine ⟨fun pw indent => ?_, fun pw indent hle => ?_, processRegion_recur_width⟩
  · unfold childPrintWidth
    exact Nat.max_comm _ _
  · unfold childPrintWidth
    rw [Nat.sub_eq_zero_of_le hle]
    rfl

/-- Witness for C6: width 25 at indent 20 gives 5; width 3 at indent 5
gives 1 (not 0); the driver call agrees for two recursion functions that
agree at the adjusted width. -/
theorem c6_adjusted_print_width_witness :
    childPrintWidth 25 20 = Nat.max 1 (25 - 20) ∧ childPrintWidth 3 5 = 1 :=
  ⟨c6_adjusted_print_width.1 25 20, c6_adjusted_print_width.2.1 3 5 (by decide)⟩

/-- Unfolding `offsetLinesSpec` over its first two bytes. -/
theorem offsetLinesSpec_cons₂ (b c : Nat) (rest : List Nat) (n : Nat) :
    offsetLinesSpec (b :: c :: rest) n =
      (if b = 10 ∧ c ≠ 10 ∧ c ≠ 13 then b :: List.replicate n 32 else [b]) ++
        offsetLinesSpec (c :: rest) n := by
  simp only [offsetLinesSpec, withNext, List.map_cons, List.flatten_cons]

/-- The `offset_lines` loop realizes the spec sentence: exactly `n` spaces
are inserted after each `\n` whose next byte exists and differs from `\n`
and `\r`. -/
theorem offsetGo_spec (n : Nat) : (data : List Nat) → offsetGo n data = offsetLinesSpec data n
  | [] => rfl
  | [b] => by simp [offsetGo, offsetLinesSpec, withNext]
  | b :: c :: rest => by
    have ih := offsetGo_spec n (c :: rest)
    rw [offsetLinesSpec_cons₂]
    by_cases hb : b = 10 ∧ ¬(c = 10 ∨ c = 13)
    · have hb' : b = 10 ∧ c ≠ 10 ∧ c ≠ 13 := by tauto
      simp [offsetGo, hb, hb', ih]
    · have hb' : ¬(b = 10 ∧ c ≠ 10 ∧ c ≠ 13) := by tauto
      simp [offsetGo, hb, hb', ih]

/-- With `n = 0` the spec-side insertion is the identity. -/
theorem offsetLinesSpec_zero : (data : List Nat) → offsetLinesSpec data 0 = data
  | [] => rfl
  | [b] => by simp [offsetLinesSpec, withNext]
  | b :: c :: rest => by
    have ih := offsetLinesSpec_zero (c :: rest)
    rw [offsetLinesSpec_cons₂, ih]
    by_cases hb : b = 10 ∧ c ≠ 10 ∧ c ≠ 13 <;> simp [hb]

/-- A leading byte other than `\n` is copied unchanged by the loop. -/
theorem offsetGo_cons_ne (n p : Nat) (hp : p ≠ 10) (xs : List Nat) :
    offsetGo n (p :: xs) = p :: offsetGo n xs := by
  cases xs with
  | nil => rfl
  | cons c r => simp [offsetGo, hp]

/-- The prefix before the first `\n` (the first line) is never modified. -/
theorem offsetGo_append_no_nl (n : Nat) (pre rest : List Nat) (h : ∀ b ∈ pre, b ≠ 10) :
    offsetGo n (pre ++ rest) = pre ++ offsetGo n rest := by
  induction pre with
  | nil => rfl
  | cons p pre ih =>
    have hp : p ≠ 10 := h p (List.mem_cons_self p pre)
    have h' : ∀ b ∈ pre, b ≠ 10 := fun b hb => h b (List.mem_cons_of_mem p hb)
    rw [List.cons_append, offsetGo_cons_ne n p hp, ih h', List.cons_append]

/-- C8: `offset_lines(data, n)` inserts exactly `n` space bytes after each
`\n` whose next byte exists and is neither `\n` nor `\r` (blank lines and
a final newline receive none), and the first line of the buffer is never
modified. -/
theorem c8_offset_lines (data : List Nat) (n : Nat) :
    offsetLines data n = offsetLinesSpec data n ∧
    (∀ pre rest, (∀ b ∈ pre, b ≠ 10) →
      offsetLines (pre ++ rest) n = pre ++ offsetLines rest n) := by
  constructor
  · unfold offsetLines
    by_cases hn : n = 0
    · rw [if_pos hn, hn, offsetLinesSpec_zero]
    · rw [if_neg hn, offsetGo_spec]
  · intro pre rest h
    unfold offsetLines
    by_cases hn : n = 0
    · simp [hn]
    · rw [if_neg hn, if_neg hn, offsetGo_append_no_nl n pre rest h]

/-- Witness for C8 on a concrete buffer: `"a\nb\n\nc\n"` with `n = 2`. -/
theorem c8_offset_lines_witness :
    offsetLines [97, 10, 98, 10, 10, 99, 10] 2 =
      offsetLinesSpec [97, 10, 98, 10, 10, 99, 10] 2 ∧
    offsetLines ([97, 98] ++ [10, 99]) 3 = [97, 98] ++ offsetLines [10, 99] 3 :=
  ⟨(c8_offset_lines [97, 10, 98, 10, 10, 99, 10] 2).1,
   (c8_offset_lines [10, 99] 3).2 [97, 98] [10, 99] (by decide)⟩

/-- If an error occurs anywhere in the list, collecting fails. -/
theorem collectExcept_error_of_mem {ε α : Type} (l : List (Except ε α)) (e : ε)
    (h : Except.error e ∈ l) : ∃ f, collectExcept l = .error f := by
  induction l with
  | nil => cases h
  | cons x rest ih =>
    cases h with
    | head => exact ⟨e, rfl⟩
    | tail _ hmem =>
      cases x with
      | error f => exact ⟨f, rfl⟩
      | ok v =>
        obtain ⟨f, hf⟩ := ih hmem
        exact ⟨f, by simp [collectExcept, hf, Except.map]⟩

/-- If every entry is a success, collecting succeeds. -/
theorem collectExcept_ok_of_forall {ε α : Type} (l : List (Except ε α))
    (h : ∀ x ∈ l, ∃ v, x = .ok v) : ∃ vs, collectExcept l = .ok vs := by
  induction l with
  | nil => exact ⟨[], rfl⟩
  | cons x rest ih =>
    obtain ⟨v, hv⟩ := h x (List.mem_cons_self x rest)
    obtain ⟨vs, hvs⟩ := ih (fun y hy => h y (List.mem_cons_of_mem x hy))
    exact ⟨v :: vs, by simp [collectExcept, hv, hvs, Except.map]⟩

/-- C9: the splice phase of one `format_recursive` call is atomic: if any
region's transform pipeline fails, the call returns an error (and hence no
updated buffer at all); if every region's pipeline succeeds, the call
returns the buffer with all region results spliced in. -/
theorem c9_atomic_splice (w : FormatWorld) (fuel : Nat) (source : List Nat)
    (opts : FormatOpts) (skipRoot : Bool) (fmt : List Nat) (regions : List InjectedRegion)
    (hg : w.grammars opts.language = true)
    (hroot : rootFormat w source opts skipRoot = .ok fmt)
    (hext : w.extract opts.language fmt = .ok regions) :
    ((∃ r ∈ sortRegionsDesc regions, ∃ e,
        processRegion (fun src o => formatRecursive w fuel src o false) source fmt
          opts.printwidth r = .error e) →
      ∃ f, formatRecursive w (fuel + 1) source opts skipRoot = .error f) ∧
    (∀ rs, collectExcept ((sortRegionsDesc regions).map (fun region =>
        (processRegion (fun src o => formatRecursive w fuel src o false) source fmt
          opts.printwidth region).map (fun v => (region, v)))) = .ok rs →
      formatRecursive w (fuel + 1) source opts skipRoot = .ok (spliceRegions fmt rs)) := by
  constructor
  · rintro ⟨r, hr, e, he⟩
    have hmem : Except.error (α := InjectedRegion × List Nat) e ∈
        (sortRegionsDesc regions).map (fun region =>
          (processRegion (fun src o => formatRecursive w fuel src o false) source fmt
            opts.printwidth region).map (fun v => (region, v))) := by
      refine List.mem_map.mpr ⟨r, hr, ?_⟩
      rw [he]
      rfl
    obtain ⟨f, hf⟩ := collectExcept_error_of_mem _ e hmem
    refine ⟨f, ?_⟩
    simp [formatRecursive, hg, hroot, hext, hf]
  · intro rs hrs
    simp [formatRecursive, hg, hroot, hext, hrs]

/-- Witness for C9 at a concrete world: the single region succeeds, so the
call returns the spliced buffer. -/
theorem c9_atomic_splice_witness :
    formatRecursive wC9 2 [97] ⟨80, "host"⟩ true =
      .ok (spliceRegions [97] [(⟨⟨0, 1⟩, "guest", ⟨[]⟩⟩, [97])]) :=
  (c9_atomic_splice wC9 1 [97] ⟨80, "host"⟩ true [97]
      [⟨⟨0, 1⟩, "guest", ⟨[]⟩⟩] rfl rfl rfl).2
    [(⟨⟨0, 1⟩, "guest", ⟨[]⟩⟩, [97])] (by decide)

/-- A region whose slice is not valid UTF-8 always fails the pipeline with
a decoding error, before the escape-set emptiness test is consulted
(`String::from_utf8` at line 180 runs unconditionally). -/
theorem processRegion_utf8_error (recur : List Nat → FormatOpts → Except FormatError (List Nat))
    (source fmt : List Nat) (pw : Nat) (region : InjectedRegion)
    (h : utf8Decode (sliceBytes fmt region.range.startByte region.range.endByte) = none) :
    processRegion recur source fmt pw region = .error .utf8 := by
  unfold processRegion
  simp [h]

/-- C10: when the grammar is found and extraction yields a region whose
byte slice is not valid UTF-8, the whole `format_recursive` call errors —
the slice is decoded to a string unconditionally, even when the region's
escape set is empty. -/
theorem c10_non_utf8_region_fails (w : FormatWorld) (fuel : Nat) (source : List Nat)
    (opts : FormatOpts) (skipRoot : Bool) (fmt : List Nat) (regions : List InjectedRegion)
    (r : InjectedRegion)
    (hg : w.grammars opts.language = true)
    (hroot : rootFormat w source opts skipRoot = .ok fmt)
    (hext : w.extract opts.language fmt = .ok regions)
    (hr : r ∈ sortRegionsDesc regions)
    (hdec : utf8Decode (sliceBytes fmt r.range.startByte r.range.endByte) = none) :
    ∃ f, formatRecursive w (fuel + 1) source opts skipRoot = .error f := by
  have herr := processRegion_utf8_error
    (fun src o => formatRecursive w fuel src o false) source fmt opts.printwidth r hdec
  have hmem : Except.error (α := InjectedRegion × List Nat) FormatError.utf8 ∈
      (sortRegionsDesc regions).map (fun region =>
        (processRegion (fun src o => formatRecursive w fuel src o false) source fmt
          opts.printwidth region).map (fun v => (region, v))) := by
    refine List.mem_map.mpr ⟨r, hr, ?_⟩
    rw [herr]
    rfl
  obtain ⟨f, hf⟩ := collectExcept_error_of_mem _ _ hmem
  refine ⟨f, ?_⟩
  simp [formatRecursive, hg, hroot, hext, hf]

/-- Witness for C10: the byte `0xFF` is not valid UTF-8, so the whole call
fails even though the region's escape set is empty. -/
theorem c10_non_utf8_region_fails_witness :
    ∃ f, formatRecursive wC10 1 [255] ⟨80, "host"⟩ false = .error f :=
  c10_non_utf8_region_fails wC10 0 [255] ⟨80, "host"⟩ false [255]
    [⟨⟨0, 1⟩, "guest", ⟨[]⟩⟩] ⟨⟨0, 1⟩, "guest", ⟨[]⟩⟩ rfl rfl rfl (by decide) (by decide)

/-- `takeWhile` over an append stops inside the first part if it contains
a failing element. -/
theorem takeWhile_append_of_mem_neg {α : Type} (p : α → Bool) (a : α) :
    (l₁ l₂ : List α) → a ∈ l₁ → p a = false →
      List.takeWhile p (l₁ ++ l₂) = List.takeWhile p l₁
  | [], _, ha, _ => by cases ha
  | x :: l₁, l₂, ha, hpa => by
    by_cases hx : p x
    · have hmem : a ∈ l₁ := by
        cases ha with
        | head => simp [hpa] at hx
        | tail _ h => exact h
      simp [List.takeWhile_cons, hx, takeWhile_append_of_mem_neg p a l₁ l₂ hmem hpa]
    · simp [List.takeWhile_cons, hx]

/-- `takeWhile` of a `dropWhile` with the same predicate is empty. -/
theorem takeWhile_dropWhile_nil {α : Type} (p : α → Bool) :
    (l : List α) → List.takeWhile p (List.dropWhile p l) = []
  | [] => rfl
  | x :: l => by
    by_cases hx : p x
    · simp [List.dropWhile_cons, hx, takeWhile_dropWhile_nil p l]
    · simp [List.dropWhile_cons, hx, List.takeWhile_cons]

/-- The trailing newline run of the popped prefix is empty. -/
theorem trailingNlRun_stripped (data : List Nat) :
    trailingNlRun ((data.reverse.dropWhile (fun b => b == 10 || b == 13)).reverse) = [] := by
  unfold trailingNlRun
  rw [List.reverse_reverse]
  exact takeWhile_dropWhile_nil _ _

/-- The trailing run is empty iff popping removes nothing. -/
theorem trailingNlRun_nil_iff (data : List Nat) :
    trailingNlRun data = [] ↔
      (data.reverse.dropWhile (fun b => b == 10 || b == 13)).reverse = data := by
  unfold trailingNlRun
  constructor
  · intro h
    have := List.takeWhile_append_dropWhile
      (p := fun b => b == 10 || b == 13) (l := data.reverse)
    rw [h, List.nil_append] at this
    rw [this, List.reverse_reverse]
  · intro h
    have hrev : List.dropWhile (fun b => b == 10 || b == 13) data.reverse = data.reverse := by
      have := congrArg List.reverse h
      rwa [List.reverse_reverse] at this
    rw [← hrev]
    exact takeWhile_dropWhile_nil _ _

/-- The popped prefix followed by one `\n` has trailing run exactly `[10]`. -/
theorem trailingNlRun_stripped_append10 (data : List Nat) :
    trailingNlRun ((data.reverse.dropWhile (fun b => b == 10 || b == 13)).reverse ++ [10]) =
      [10] := by
  unfold trailingNlRun
  rw [List.reverse_append, List.reverse_reverse]
  show List.takeWhile _ (10 :: _) = _
  rw [List.takeWhile_cons, if_pos (by decide)]
  show 10 :: List.takeWhile _ (List.dropWhile _ _) = _
  rw [takeWhile_dropWhile_nil]

/-- Characterization of the trailing run after `trim_trailing_whitespace`:
with `preserve_newline` it is one `\n` exactly when something was popped,
otherwise it is empty. -/
theorem trim_trailingNlRun (data : List Nat) (preserve : Bool) :
    trailingNlRun (trimTrailingWhitespace data preserve) =
      if preserve = true ∧ trailingNlRun data ≠ [] then [10] else [] := by
  simp only [trimTrailingWhitespace]
  by_cases hrun : trailingNlRun data = []
  · have hid := (trailingNlRun_nil_iff data).mp hrun
    rw [show (preserve && decide
        ((data.reverse.dropWhile (fun b => b == 10 || b == 13)).reverse ≠ data)) = false by
      simp [hid]]
    simp only [Bool.false_eq_true, if_false]
    rw [if_neg (by simp [hrun]), hid]
    exact hrun
  · have hne : (data.reverse.dropWhile (fun b => b == 10 || b == 13)).reverse ≠ data :=
      fun hid => hrun ((trailingNlRun_nil_iff data).mpr hid)
    cases preserve with
    | false =>
      simp only [Bool.false_and, Bool.false_eq_true, if_false]
      rw [if_neg (by simp)]
      exact trailingNlRun_stripped data
    | true =>
      rw [show (true && decide
          ((data.reverse.dropWhile (fun b => b == 10 || b == 13)).reverse ≠ data)) = true by
        simp [hne]]
      simp only [if_true]
      rw [if_pos (by exact ⟨by simp, hrun⟩)]
      exact trailingNlRun_stripped_append10 data

/-- `trim_trailing_whitespace` is the identity when nothing trails. -/
theorem trim_id_of_run_nil (data : List Nat) (preserve : Bool)
    (h : trailingNlRun data = []) : trimTrailingWhitespace data preserve = data := by
  simp only [trimTrailingWhitespace]
  have hid := (trailingNlRun_nil_iff data).mp h
  rw [show (preserve && decide
      ((data.reverse.dropWhile (fun b => b == 10 || b == 13)).reverse ≠ data)) = false by
    simp [hid]]
  simp only [Bool.false_eq_true, if_false]
  exact hid

/-- `trim_trailing_whitespace` with `preserve_newline` is the identity on
data whose trailing run is a single `\n`. -/
theorem trim_id_of_run_single (data : List Nat)
    (h : trailingNlRun data = [10]) : trimTrailingWhitespace data true = data := by
  simp only [trimTrailingWhitespace]
  have hsplit := List.takeWhile_append_dropWhile
    (p := fun b => b == 10 || b == 13) (l := data.reverse)
  unfold trailingNlRun at h
  rw [h] at hsplit
  have hdata : (List.dropWhile (fun b => b == 10 || b == 13) data.reverse).reverse ++ [10]
      = data := by
    have h2 := congrArg List.reverse hsplit
    rw [List.reverse_append] at h2
    simpa using h2
  have hne : (data.reverse.dropWhile (fun b => b == 10 || b == 13)).reverse ≠ data := by
    intro heq
    have := (trailingNlRun_nil_iff data).mpr heq
    unfold trailingNlRun at this
    rw [h] at this
    cases this
  rw [show (true && decide
      ((data.reverse.dropWhile (fun b => b == 10 || b == 13)).reverse ≠ data)) = true by
    simp [hne]]
  simp only [if_true]
  exact hdata

/-- Loop equation: insertion step. -/
theorem offsetGo_cons₂_pos (n b c : Nat) (rest : List Nat) (h : b = 10 ∧ ¬(c = 10 ∨ c = 13)) :
    offsetGo n (b :: c :: rest) = b :: (List.replicate n 32 ++ offsetGo n (c :: rest)) := by
  simp only [offsetGo]
  rw [if_pos h]

/-- Loop equation: copy step. -/
theorem offsetGo_cons₂_neg (n b c : Nat) (rest : List Nat) (h : ¬(b = 10 ∧ ¬(c = 10 ∨ c = 13))) :
    offsetGo n (b :: c :: rest) = b :: offsetGo n (c :: rest) := by
  simp only [offsetGo]
  rw [if_neg h]

/-- Original bytes survive in the output of the `offset_lines` loop. -/
theorem offsetGo_mem (n a : Nat) : (x : List Nat) → a ∈ x → a ∈ offsetGo n x
  | [], ha => by cases ha
  | [b], ha => ha
  | b :: c :: rest, ha => by
    have step : a = b ∨ a ∈ c :: rest := List.mem_cons.mp ha
    by_cases hcond : b = 10 ∧ ¬(c = 10 ∨ c = 13)
    · rw [offsetGo_cons₂_pos n b c rest hcond]
      rcases step with h | h
      · exact h ▸ List.mem_cons_self _ _
      · exact List.mem_cons_of_mem _ (List.mem_append_right _ (offsetGo_mem n a (c :: rest) h))
    · rw [offsetGo_cons₂_neg n b c rest hcond]
      rcases step with h | h
      · exact h ▸ List.mem_cons_self _ _
      · exact List.mem_cons_of_mem _ (offsetGo_mem n a (c :: rest) h)

/-- On a buffer of newline and carriage-return bytes only, the
`offset_lines` loop is the identity. -/
theorem offsetGo_all_nl (n : Nat) : (x : List Nat) →
    (∀ a ∈ x, (a == 10 || a == 13) = true) → offsetGo n x = x
  | [], _ => rfl
  | [b], _ => rfl
  | b :: c :: rest, h => by
    have hc : (c == 10 || c == 13) = true :=
      h c (List.mem_cons_of_mem _ (List.mem_cons_self _ _))
    have hcond : ¬(b = 10 ∧ ¬(c = 10 ∨ c = 13)) := by
      simp only [beq_iff_eq, Bool.or_eq_true] at hc
      tauto
    rw [offsetGo_cons₂_neg n b c rest hcond,
      offsetGo_all_nl n (c :: rest) (fun a ha => h a (List.mem_cons_of_mem _ ha))]

/-- Re-indenting inserts spaces only strictly before the trailing
newline run, so the run is preserved exactly. -/
theorem offsetGo_trailingNlRun (n : Nat) : (x : List Nat) →
    trailingNlRun (offsetGo n x) = trailingNlRun x
  | [] => rfl
  | [b] => rfl
  | b :: c :: rest => by
    have ih := offsetGo_trailingNlRun n (c :: rest)
    by_cases hall : ∀ a ∈ c :: rest, (a == 10 || a == 13) = true
    · have hc : (c == 10 || c == 13) = true := hall c (List.mem_cons_self c rest)
      have hcond : ¬(b = 10 ∧ ¬(c = 10 ∨ c = 13)) := by
        simp only [beq_iff_eq, Bool.or_eq_true] at hc
        tauto
      rw [offsetGo_cons₂_neg n b c rest hcond, offsetGo_all_nl n (c :: rest) hall]
    · push_neg at hall
      obtain ⟨a, ha, hpa⟩ := hall
      have hpa' : (a == 10 || a == 13) = false := by
        cases hval : (a == 10 || a == 13) with
        | true => exact absurd hval hpa
        | false => rfl
      have hago : a ∈ (offsetGo n (c :: rest)).reverse :=
        List.mem_reverse.mpr (offsetGo_mem n a (c :: rest) ha)
      have harev : a ∈ (c :: rest).reverse := List.mem_reverse.mpr ha
      unfold trailingNlRun at ih ⊢
      by_cases hcond : b = 10 ∧ ¬(c = 10 ∨ c = 13)
      · rw [offsetGo_cons₂_pos n b c rest hcond]
        rw [List.reverse_cons, List.reverse_append, List.append_assoc]
        rw [takeWhile_append_of_mem_neg _ a _ _ hago hpa']
        rw [List.reverse_cons, takeWhile_append_of_mem_neg _ a _ _ harev hpa']
        exact ih
      · rw [offsetGo_cons₂_neg n b c rest hcond]
        rw [List.reverse_cons, takeWhile_append_of_mem_neg _ a _ _ hago hpa']
        rw [List.reverse_cons, takeWhile_append_of_mem_neg _ a _ _ harev hpa']
        exact ih

/-- `offset_lines` preserves the trailing newline run. -/
theorem offsetLines_trailingNlRun (x : List Nat) (n : Nat) :
    trailingNlRun (offsetLines x n) = trailingNlRun x := by
  unfold offsetLines
  by_cases hn : n = 0
  · rw [if_pos hn]
  · rw [if_neg hn, offsetGo_trailingNlRun]

/-- A successful region pipeline result is the re-indent of the trim of
the (escaped) sub-result, with `preserve_newline` taken from the slice. -/
theorem processRegion_ok_shape (recur : List Nat → FormatOpts → Except FormatError (List Nat))
    (source fmt : List Nat) (pw : Nat) (region : InjectedRegion) (result : List Nat)
    (h : processRegion recur source fmt pw region = .ok result) :
    ∃ escaped, result = offsetLines
      (trimTrailingWhitespace escaped
        ((sliceBytes fmt region.range.startByte region.range.endByte).getLast? == some 10))
      (regionIndentOf source fmt region) := by
  simp only [processRegion] at h
  split at h
  · exact absurd h (by simp)
  · rename_i sourceStr heq
    split at h
    · exact absurd h (by simp)
    · split at h
      · exact absurd h (by simp)
      · rename_i escaped hesc
        refine ⟨escaped, ?_⟩
        have hind : regionIndentOf source fmt region =
            regionIndent source region.range.startByte
              (if (sortEscapeChars region.opts.escapeChars).isEmpty then sourceStr
               else unescapeText sourceStr (sortEscapeChars region.opts.escapeChars)) := by
          unfold regionIndentOf regionUnescaped
          rw [heq]
        rw [hind]
        have hr := h
        injection hr with hr
        exact hr.symm

/-- C5 counterexample: a region whose source slice is `"x\n"` (ends with
`\n`) is processed successfully, but the spliced bytes are the guest
formatter's output `"abc"`, which ends with no `\n` at all —
`trim_trailing_whitespace` re-appends a newline only when it popped one. -/
theorem c5_counterexample :
    (sliceBytes [120, 10] 0 2).getLast? = some 10 ∧
    processRegion (fun src o => formatRecursive wC5 1 src o false) [120, 10] [120, 10] 80
      ⟨⟨0, 2⟩, "guest", ⟨[]⟩⟩ = .ok [97, 98, 99] ∧
    trailingNlRun [97, 98, 99] = [] := by
  refine ⟨rfl, ?_, rfl⟩
  decide

/-- C5 (amended): for a successfully processed region, the spliced result
is the re-indent of the trim of the escaped sub-formatter output, and: if
the source slice does not end with `\n` the result has no trailing `\n`
(or `\r`); if the slice ends with `\n`, the result ends with exactly one
`\n` when the escaped sub-formatter output itself ends with at least one
`\n` or `\r` byte, and with no trailing `\n` when the output has no
trailing `\n`/`\r` at all. -/
theorem c5_trailing_newline (recur : List Nat → FormatOpts → Except FormatError (List Nat))
    (source fmt : List Nat) (pw : Nat) (region : InjectedRegion) (result : List Nat)
    (h : processRegion recur source fmt pw region = .ok result) :
    ∃ escaped, result = offsetLines
      (trimTrailingWhitespace escaped
        ((sliceBytes fmt region.range.startByte region.range.endByte).getLast? == some 10))
      (regionIndentOf source fmt region) ∧
    ((sliceBytes fmt region.range.startByte region.range.endByte).getLast? ≠ some 10 →
      trailingNlRun result = []) ∧
    ((sliceBytes fmt region.range.startByte region.range.endByte).getLast? = some 10 →
      trailingNlRun escaped ≠ [] → trailingNlRun result = [10]) ∧
    ((sliceBytes fmt region.range.startByte region.range.endByte).getLast? = some 10 →
      trailingNlRun escaped = [] → trailingNlRun result = []) := by
  obtain ⟨escaped, hshape⟩ := processRegion_ok_shape recur source fmt pw region result h
  refine ⟨escaped, hshape, ?_, ?_, ?_⟩
  · intro hne
    have hbeq : ((sliceBytes fmt region.range.startByte region.range.endByte).getLast? ==
        some 10) = false := by
      simp [hne]
    rw [hshape, hbeq, offsetLines_trailingNlRun, trim_trailingNlRun]
    simp
  · intro heq10 hrun
    have hbeq : ((sliceBytes fmt region.range.startByte region.range.endByte).getLast? ==
        some 10) = true := by
      simp [heq10]
    rw [hshape, hbeq, offsetLines_trailingNlRun, trim_trailingNlRun]
    simp [hrun]
  · intro heq10 hrun
    have hbeq : ((sliceBytes fmt region.range.startByte region.range.endByte).getLast? ==
        some 10) = true := by
      simp [heq10]
    rw [hshape, hbeq, offsetLines_trailingNlRun, trim_trailingNlRun]
    simp [hrun]

/-- Witness for C5 at a concrete region whose slice is `"x\n"` and whose
guest language is unknown (the pipeline keeps the slice): the result's
trailing run is exactly one `\n`, via the output-run dichotomy of the
theorem. -/
theorem c5_trailing_newline_witness :
    trailingNlRun [120, 10] = [10] := by
  obtain ⟨escaped, hshape, h1, h2, h3⟩ := c5_trailing_newline
    (fun src o => formatRecursive wTriv 1 src o false)
    [120, 10] [120, 10] 80 ⟨⟨0, 2⟩, "guest", ⟨[]⟩⟩ [120, 10] (by decide)
  by_cases hrun : trailingNlRun escaped = []
  · exact absurd (h3 (by decide) hrun) (by decide)
  · exact h2 (by decide) hrun

/-- Split equation: a newline byte forms a segment on its own, closing
the current line. -/
theorem splitNL_cons_nl (rest : List Nat) :
    splitInclusiveNL (10 :: rest) = [10] :: splitInclusiveNL rest := by
  simp [splitInclusiveNL]

/-- Split equation: a non-newline byte extends the first segment. -/
theorem splitNL_cons_ne (b : Nat) (rest : List Nat) (hb : b ≠ 10) :
    splitInclusiveNL (b :: rest) =
      match splitInclusiveNL rest with
      | [] => [[b]]
      | seg :: segs => (b :: seg) :: segs := by
  simp [splitInclusiveNL, hb]

/-- Splitting and flattening reconstructs the text. -/
theorem splitNL_flatten : ∀ t : List Nat, (splitInclusiveNL t).flatten = t
  | [] => rfl
  | b :: rest => by
    by_cases hb : b = 10
    · subst hb
      rw [splitNL_cons_nl]
      simp [splitNL_flatten rest]
    · rw [splitNL_cons_ne b rest hb]
      cases hs : splitInclusiveNL rest with
      | nil =>
        have h := splitNL_flatten rest
        rw [hs] at h
        simp at h
        simp [← h]
      | cons seg segs =>
        have h := splitNL_flatten rest
        rw [hs] at h
        simp only [List.flatten_cons, List.cons_append]
        rw [show seg ++ (segs.flatten) = (seg :: segs).flatten from rfl, h]

/-- The segmentation produced by `split_inclusive('\n')` is well formed. -/
theorem splitNL_wf : ∀ t : List Nat, segsWF (splitInclusiveNL t)
  | [] => trivial
  | b :: rest => by
    by_cases hb : b = 10
    · subst hb
      rw [splitNL_cons_nl]
      exact ⟨by simp, by simp, Or.inr rfl, splitNL_wf rest⟩
    · rw [splitNL_cons_ne b rest hb]
      cases hs : splitInclusiveNL rest with
      | nil => exact ⟨by simp, by simp [hb], Or.inl rfl, trivial⟩
      | cons seg segs =>
        have hwf := splitNL_wf rest
        rw [hs] at hwf
        obtain ⟨hne, hint, hlast, hrest⟩ := hwf
        refine ⟨by simp, ?_, ?_, hrest⟩
        · rw [List.dropLast_cons_of_ne_nil hne]
          intro hmem
          rcases List.mem_cons.mp hmem with h | h
          · exact hb h.symm
          · exact hint h
        · rcases hlast with h | h
          · exact Or.inl h
          · right
            cases seg with
            | nil => exact absurd rfl hne
            | cons s0 ss => rw [List.getLast?_cons_cons]; exact h

/-- A non-empty segment with interior free of `\n` splits to itself. -/
theorem splitNL_single : ∀ seg : List Nat, seg ≠ [] → 10 ∉ seg.dropLast →
    splitInclusiveNL seg = [seg]
  | [], h, _ => absurd rfl h
  | [b], _, _ => by
    by_cases hb : b = 10
    · subst hb
      rw [splitNL_cons_nl]
      rfl
    · rw [splitNL_cons_ne b [] hb]
      rfl
  | b :: c :: rest, _, hint => by
    have hb : b ≠ 10 := by
      intro h
      exact hint (h ▸ List.mem_cons_self _ _)
    have hint' : 10 ∉ (c :: rest).dropLast := by
      intro h
      exact hint (List.mem_cons_of_mem _ h)
    rw [splitNL_cons_ne b _ hb, splitNL_single (c :: rest) (by simp) hint']

/-- Splitting after a `\n`-terminated prefix peels off that line. -/
theorem splitNL_append10 : ∀ y xs : List Nat, 10 ∉ y →
    splitInclusiveNL (y ++ 10 :: xs) = (y ++ [10]) :: splitInclusiveNL xs
  | [], xs, _ => by
    rw [List.nil_append, splitNL_cons_nl]
    rfl
  | b :: y, xs, h => by
    have hb : b ≠ 10 := fun hc => h (by rw [hc]; exact List.mem_cons_self _ _)
    have h' : 10 ∉ y := fun hc => h (List.mem_cons_of_mem _ hc)
    rw [List.cons_append, splitNL_cons_ne b _ hb, splitNL_append10 y xs h']
    rfl

/-- Splitting inverts flattening on well-formed segmentations. -/
theorem splitNL_flatten_inv : ∀ segs : List (List Nat), segsWF segs →
    splitInclusiveNL segs.flatten = segs
  | [], _ => rfl
  | seg :: rest, hwf => by
    obtain ⟨hne, hint, hlast, hrest⟩ := hwf
    rcases hlast with hr | h10
    · subst hr
      simp only [List.flatten_cons, List.flatten_nil, List.append_nil]
      exact splitNL_single seg hne hint
    · have hseg : seg.dropLast ++ [10] = seg := List.dropLast_append_getLast? 10 h10
      rw [List.flatten_cons, ← hseg, List.append_assoc, List.singleton_append]
      rw [splitNL_append10 seg.dropLast _ hint, splitNL_flatten_inv rest hrest]

/-- The first segment starts with the first byte of the text. -/
theorem splitNL_head : ∀ t : List Nat, t ≠ [] →
    ∃ seg segs, splitInclusiveNL t = seg :: segs ∧ seg.head? = t.head?
  | [], h => absurd rfl h
  | b :: rest, _ => by
    by_cases hb : b = 10
    · subst hb
      rw [splitNL_cons_nl]
      exact ⟨[10], _, rfl, rfl⟩
    · rw [splitNL_cons_ne b rest hb]
      cases hs : splitInclusiveNL rest with
      | nil => exact ⟨[b], [], rfl, rfl⟩
      | cons seg segs => exact ⟨b :: seg, segs, rfl, rfl⟩

/-- The `offset_lines` loop acts segment-wise: the first line is left
alone and every later line is re-indented by `offsetSeg`. -/
theorem offsetGo_segs (n : Nat) : ∀ t : List Nat,
    offsetGo n t = (offsetSegs n (splitInclusiveNL t)).flatten
  | [] => rfl
  | b :: rest => by
    by_cases hb : b = 10
    · subst hb
      cases rest with
      | nil => rfl
      | cons c r =>
        rw [splitNL_cons_nl]
        obtain ⟨seg, segs, hs, hhead⟩ := splitNL_head (c :: r) (by simp)
        rw [hs]
        have ih := offsetGo_segs n (c :: r)
        rw [hs] at ih
        simp only [offsetSegs, List.flatten_cons] at ih ⊢
        by_cases hc : c = 10 ∨ c = 13
        · have hcond : ¬(10 = 10 ∧ ¬(c = 10 ∨ c = 13)) := by tauto
          rw [offsetGo_cons₂_neg n 10 c r hcond, ih]
          have hf : offsetSeg n seg = seg := by
            unfold offsetSeg
            rw [if_pos]
            rw [hhead]
            rcases hc with h | h
            · exact Or.inl (by rw [h]; rfl)
            · exact Or.inr (by rw [h]; rfl)
          rw [List.map_cons, List.flatten_cons, hf]
          rfl
        · have hcond : 10 = 10 ∧ ¬(c = 10 ∨ c = 13) := ⟨rfl, hc⟩
          rw [offsetGo_cons₂_pos n 10 c r hcond, ih]
          have hf : offsetSeg n seg = List.replicate n 32 ++ seg := by
            unfold offsetSeg
            rw [if_neg (by rw [hhead]; simpa using hc)]
          rw [List.map_cons, List.flatten_cons, hf, List.append_assoc]
          rfl
    · rw [offsetGo_cons_ne n b hb rest, splitNL_cons_ne b rest hb]
      cases hs : splitInclusiveNL rest with
      | nil =>
        have h := splitNL_flatten rest
        rw [hs] at h
        have hr : rest = [] := h.symm
        subst hr
        rfl
      | cons seg segs =>
        have ih := offsetGo_segs n rest
        rw [hs] at ih
        simp only [offsetSegs, List.flatten_cons] at ih ⊢
        rw [ih, List.cons_append]

/-- All segments of a well-formed segmentation are non-empty. -/
theorem segsWF_all_ne : ∀ segs : List (List Nat), segsWF segs → ∀ seg ∈ segs, seg ≠ []
  | [], _, _, h => by cases h
  | s :: rest, ⟨hne, _, _, hrest⟩, seg, h => by
    rcases List.mem_cons.mp h with h | h
    · exact h ▸ hne
    · exact segsWF_all_ne rest hrest seg h

/-- `offsetSeg` keeps a segment non-empty. -/
theorem offsetSeg_ne_nil (n : Nat) (seg : List Nat) (h : seg ≠ []) : offsetSeg n seg ≠ [] := by
  unfold offsetSeg
  split
  · exact h
  · simp [h]

/-- `offsetSeg` keeps the interior free of `\n`. -/
theorem offsetSeg_dropLast (n : Nat) (seg : List Nat) (hne : seg ≠ [])
    (h : 10 ∉ seg.dropLast) : 10 ∉ (offsetSeg n seg).dropLast := by
  unfold offsetSeg
  split
  · exact h
  · rw [List.dropLast_append_of_ne_nil _ hne]
    intro hmem
    rcases List.mem_append.mp hmem with hm | hm
    · have := List.eq_of_mem_replicate hm
      cases this
    · exact h hm

/-- `offsetSeg` keeps the last byte. -/
theorem offsetSeg_getLast? (n : Nat) (seg : List Nat) (hne : seg ≠ []) :
    (offsetSeg n seg).getLast? = seg.getLast? := by
  unfold offsetSeg
  split
  · rfl
  · rw [List.getLast?_append]
    cases hlast : seg.getLast? with
    | none => exact absurd (List.getLast?_eq_none_iff.mp hlast) hne
    | some x => rfl

/-- `offsetSeg` preserves well-formedness of a segmentation. -/
theorem segsWF_map_offsetSeg (n : Nat) : ∀ segs : List (List Nat), segsWF segs →
    segsWF (segs.map (offsetSeg n))
  | [], _ => trivial
  | seg :: rest, ⟨hne, hint, hlast, hrest⟩ => by
    refine ⟨offsetSeg_ne_nil n seg hne, offsetSeg_dropLast n seg hne hint, ?_,
      segsWF_map_offsetSeg n rest hrest⟩
    rcases hlast with h | h
    · subst h
      exact Or.inl rfl
    · exact Or.inr (by rw [offsetSeg_getLast? n seg hne]; exact h)

/-- `offsetSegs` preserves well-formedness. -/
theorem offsetSegs_wf (n : Nat) : ∀ segs : List (List Nat), segsWF segs →
    segsWF (offsetSegs n segs)
  | [], _ => trivial
  | first :: rest, ⟨hne, hint, hlast, hrest⟩ => by
    refine ⟨hne, hint, ?_, segsWF_map_offsetSeg n rest hrest⟩
    rcases hlast with h | h
    · subst h
      exact Or.inl rfl
    · exact Or.inr h

/-- Dropping the last element cannot create a new head. -/
theorem head?_dropLast_ne (seg : List Nat) (x : Nat) (h : seg.head? ≠ some x) :
    seg.dropLast.head? ≠ some x := by
  cases seg with
  | nil => simp
  | cons a t =>
    cases t with
    | nil => simp
    | cons b t' => simpa using h

/-- `takeWhile (== 32)` of a buffer not starting with a space is empty. -/
theorem takeWhile32_nil (l : List Nat) (h : l.head? ≠ some 32) :
    l.takeWhile (fun ch => ch == 32) = [] := by
  cases l with
  | nil => rfl
  | cons x t =>
    have hx : x ≠ 32 := by
      intro hc
      exact h (by rw [hc]; rfl)
    simp [List.takeWhile_cons, hx]

/-- `takeWhile (== 32)` absorbs a prepended block of spaces. -/
theorem takeWhile32_replicate_append (n : Nat) (l : List Nat) :
    (List.replicate n 32 ++ l).takeWhile (fun ch => ch == 32) =
      List.replicate n 32 ++ l.takeWhile (fun ch => ch == 32) := by
  induction n with
  | zero => rfl
  | succ n ih => simp [List.replicate_succ, List.takeWhile_cons, ih]

/-- `stripSegment` is the identity on a segment whose line does not begin
with a space. -/
theorem stripSegment_id (n : Nat) (seg : List Nat) (hhead : seg.head? ≠ some 32) :
    stripSegment n seg = seg := by
  simp only [stripSegment]
  by_cases hlast : seg.getLast? = some 10
  · simp only [hlast, if_pos rfl, reduceIte]
    rw [takeWhile32_nil _ (head?_dropLast_ne seg 32 hhead)]
    simp only [List.length_nil, Nat.min_zero, List.drop_zero]
    exact List.dropLast_append_getLast? 10 hlast
  · simp only [hlast, if_neg, reduceIte, if_false]
    rw [takeWhile32_nil _ hhead]
    simp

/-- `stripSegment` removes exactly a prepended block of `n` spaces from a
segment whose line does not itself begin with a space. -/
theorem stripSegment_prepend (n : Nat) (seg : List Nat) (hne : seg ≠ [])
    (hhead : seg.head? ≠ some 32) :
    stripSegment n (List.replicate n 32 ++ seg) = seg := by
  simp only [stripSegment]
  have hlast_eq : (List.replicate n 32 ++ seg).getLast? = seg.getLast? := by
    rw [List.getLast?_append]
    cases hl : seg.getLast? with
    | none => exact absurd (List.getLast?_eq_none_iff.mp hl) hne
    | some x => rfl
  by_cases hlast : seg.getLast? = some 10
  · rw [hlast] at hlast_eq
    simp only [hlast_eq, if_pos rfl, reduceIte]
    rw [List.dropLast_append_of_ne_nil _ hne]
    rw [takeWhile32_replicate_append]
    rw [takeWhile32_nil _ (head?_dropLast_ne seg 32 hhead)]
    simp only [List.append_nil, List.length_replicate, Nat.min_self]
    rw [List.drop_left' (by simp)]
    exact List.dropLast_append_getLast? 10 hlast
  · have hlast' : ¬(List.replicate n 32 ++ seg).getLast? = some 10 := by
      rw [hlast_eq]
      exact hlast
    simp only [hlast', reduceIte, if_false]
    rw [takeWhile32_replicate_append, takeWhile32_nil _ hhead]
    simp only [List.append_nil, List.length_replicate, Nat.min_self]
    rw [List.drop_left' (by simp)]

/-- Dedenting undoes `offsetSeg` on every later segment. -/
theorem strip_offsetSegs (n : Nat) : ∀ rest : List (List Nat),
    (∀ seg ∈ rest, seg ≠ []) → (∀ seg ∈ rest, seg.head? ≠ some 32) →
    (rest.map (offsetSeg n)).map (stripSegment n) = rest
  | [], _, _ => rfl
  | seg :: rest, hne, h32 => by
    have hseg32 := h32 seg (List.mem_cons_self _ _)
    have hsegne := hne seg (List.mem_cons_self _ _)
    have ih := strip_offsetSegs n rest
      (fun s hm => hne s (List.mem_cons_of_mem _ hm))
      (fun s hm => h32 s (List.mem_cons_of_mem _ hm))
    simp only [List.map_cons]
    rw [ih]
    congr 1
    unfold offsetSeg
    split
    · exact stripSegment_id n seg hseg32
    · exact stripSegment_prepend n seg hsegne hseg32

/-- C3: for every text none of whose lines begins with a space character
and every `n`, `strip_leading_indent(offset_lines(t, n), n) = t` —
re-indenting by `n` and then dedenting by `n` is the identity. -/
theorem c3_strip_offset_roundtrip (t : List Nat) (n : Nat) (hpre : noLineLeadingSpace t) :
    stripLeadingIndent (offsetLines t n) n = t := by
  by_cases hn : n = 0
  · subst hn
    simp [offsetLines, stripLeadingIndent]
  · rw [show offsetLines t n = offsetGo n t from by unfold offsetLines; rw [if_neg hn]]
    rw [offsetGo_segs n t]
    unfold stripLeadingIndent
    rw [if_neg hn]
    rw [splitNL_flatten_inv _ (offsetSegs_wf n _ (splitNL_wf t))]
    cases hs : splitInclusiveNL t with
    | nil =>
      have ht : t = [] := by
        have h := splitNL_flatten t
        rw [hs] at h
        exact h.symm
      rw [ht]
      rfl
    | cons first rest =>
      have hwf := splitNL_wf t
      rw [hs] at hwf
      have hall_ne := segsWF_all_ne _ hwf
      have h32 : ∀ seg ∈ first :: rest, seg.head? ≠ some 32 := by
        intro seg hm
        exact hpre seg (hs ▸ hm)
      simp only [offsetSegs, List.map_cons]
      rw [stripSegment_id n first (h32 first (List.mem_cons_self _ _))]
      rw [strip_offsetSegs n rest
        (fun seg hm => hall_ne seg (List.mem_cons_of_mem _ hm))
        (fun seg hm => h32 seg (List.mem_cons_of_mem _ hm))]
      rw [show (first :: rest) = splitInclusiveNL t from hs.symm, splitNL_flatten]

/-- Witness for C3: `"ab\ncd\n\ne"` re-indented by 2 and dedented by 2. -/
theorem c3_strip_offset_roundtrip_witness :
    stripLeadingIndent (offsetLines [97, 98, 10, 99, 100, 10, 10, 101] 2) 2 =
      [97, 98, 10, 99, 100, 10, 10, 101] :=
  c3_strip_offset_roundtrip [97, 98, 10, 99, 100, 10, 10, 101] 2 (by decide)

/-- Unfolding `utf8Encode` over a cons. -/
theorem utf8Encode_cons (c : Nat) (cs : List Nat) :
    utf8Encode (c :: cs) = utf8EncodeChar c ++ utf8Encode cs := by
  simp [utf8Encode]

/-- Unfolding `utf8Decode` over its first byte. -/
theorem utf8Decode_cons (b0 : Nat) (rest : List Nat) :
    utf8Decode (b0 :: rest) =
      (if b0 < 0x80 then (utf8Decode rest).map (b0 :: ·)
       else if b0 < 0xC2 then none
       else if b0 < 0xE0 then
         match rest with
         | b1 :: rest2 =>
           if isCont b1 then (utf8Decode rest2).map (((b0 - 0xC0) * 64 + (b1 - 0x80)) :: ·)
           else none
         | [] => none
       else if b0 < 0xF0 then
         match rest with
         | b1 :: b2 :: rest3 =>
           if ((if b0 = 0xE0 then 0xA0 else 0x80) ≤ b1 &&
               b1 ≤ (if b0 = 0xED then 0x9F else 0xBF)) && isCont b2 then
             (utf8Decode rest3).map
               (((b0 - 0xE0) * 4096 + (b1 - 0x80) * 64 + (b2 - 0x80)) :: ·)
           else none
         | _ => none
       else if b0 < 0xF5 then
         match rest with
         | b1 :: b2 :: b3 :: rest4 =>
           if ((if b0 = 0xF0 then 0x90 else 0x80) ≤ b1 &&
               b1 ≤ (if b0 = 0xF4 then 0x8F else 0xBF)) && isCont b2 && isCont b3 then
             (utf8Decode rest4).map
               (((b0 - 0xF0) * 262144 + (b1 - 0x80) * 4096 + (b2 - 0x80) * 64 + (b3 - 0x80)) :: ·)
           else none
         | _ => none
       else none) := by
  cases rest with
  | nil => rfl
  | cons b1 rest1 =>
    cases rest1 with
    | nil => rfl
    | cons b2 rest2 =>
      cases rest2 with
      | nil => rfl
      | cons b3 rest3 => rfl

/-- Decoding then encoding reproduces the original bytes: `utf8Encode` is
a left inverse of `utf8Decode` on valid UTF-8 input. -/
theorem utf8_encode_decode : ∀ (N : Nat) (bs : List Nat), bs.length ≤ N →
    ∀ cs, utf8Decode bs = some cs → utf8Encode cs = bs := by
  intro N
  induction N with
  | zero =>
    intro bs hlen cs hdec
    have hbs : bs = [] := List.length_eq_zero.mp (Nat.le_zero.mp hlen)
    subst hbs
    replace hdec : some ([] : List Nat) = some cs := hdec
    injection hdec with hdec
    subst hdec
    rfl
  | succ N ih =>
    intro bs hlen cs hdec
    cases bs with
    | nil =>
      replace hdec : some ([] : List Nat) = some cs := hdec
      injection hdec with hdec
      subst hdec
      rfl
    | cons b0 rest =>
      rw [utf8Decode_cons] at hdec
      by_cases h1 : b0 < 0x80
      · rw [if_pos h1] at hdec
        cases hrest : utf8Decode rest with
        | none => rw [hrest] at hdec; cases hdec
        | some cs' =>
          rw [hrest] at hdec
          replace hdec : some (b0 :: cs') = some cs := hdec
          injection hdec with hdec
          subst hdec
          rw [utf8Encode_cons, ih rest (by simp at hlen; omega) cs' hrest]
          rw [show utf8EncodeChar b0 = [b0] from by unfold utf8EncodeChar; rw [if_pos h1]]
          rfl
      · rw [if_neg h1] at hdec
        by_cases h2 : b0 < 0xC2
        · rw [if_pos h2] at hdec; cases hdec
        · rw [if_neg h2] at hdec
          by_cases h3 : b0 < 0xE0
          · rw [if_pos h3] at hdec
            cases rest with
            | nil => exact Option.noConfusion hdec
            | cons b1 rest2 =>
              replace hdec : (if isCont b1 then
                  (utf8Decode rest2).map (((b0 - 0xC0) * 64 + (b1 - 0x80)) :: ·)
                else none) = some cs := hdec
              by_cases hc1 : isCont b1
              · rw [if_pos hc1] at hdec
                cases hrest : utf8Decode rest2 with
                | none => rw [hrest] at hdec; cases hdec
                | some cs' =>
                  rw [hrest] at hdec
                  replace hdec : some (((b0 - 0xC0) * 64 + (b1 - 0x80)) :: cs') = some cs := hdec
                  injection hdec with hdec
                  subst hdec
                  rw [utf8Encode_cons, ih rest2 (by simp at hlen; omega) cs' hrest]
                  have hb1 : 0x80 ≤ b1 ∧ b1 < 0xC0 := by simpa [isCont] using hc1
                  have henc : utf8EncodeChar ((b0 - 0xC0) * 64 + (b1 - 0x80)) = [b0, b1] := by
                    unfold utf8EncodeChar
                    rw [if_neg (by omega), if_pos (by omega)]
                    have e1 : 0xC0 + ((b0 - 0xC0) * 64 + (b1 - 0x80)) / 64 = b0 := by omega
                    have e2 : 0x80 + ((b0 - 0xC0) * 64 + (b1 - 0x80)) % 64 = b1 := by omega
                    rw [e1, e2]
                  rw [henc]
                  rfl
              · rw [if_neg hc1] at hdec; cases hdec
          · rw [if_neg h3] at hdec
            by_cases h4 : b0 < 0xF0
            · rw [if_pos h4] at hdec
              cases rest with
              | nil => exact Option.noConfusion hdec
              | cons b1 rest1 =>
                cases rest1 with
                | nil => exact Option.noConfusion hdec
                | cons b2 rest3 =>
                  replace hdec : (if ((if b0 = 0xE0 then 0xA0 else 0x80) ≤ b1 &&
                      b1 ≤ (if b0 = 0xED then 0x9F else 0xBF)) && isCont b2 then
                      (utf8Decode rest3).map
                        (((b0 - 0xE0) * 4096 + (b1 - 0x80) * 64 + (b2 - 0x80)) :: ·)
                    else none) = some cs := hdec
                  by_cases hcond : (((if b0 = 0xE0 then 0xA0 else 0x80) ≤ b1 &&
                      b1 ≤ (if b0 = 0xED then 0x9F else 0xBF)) && isCont b2) = true
                  · rw [if_pos hcond] at hdec
                    cases hrest : utf8Decode rest3 with
                    | none => rw [hrest] at hdec; cases hdec
                    | some cs' =>
                      rw [hrest] at hdec
                      replace hdec : some (((b0 - 0xE0) * 4096 + (b1 - 0x80) * 64 +
                          (b2 - 0x80)) :: cs') = some cs := hdec
                      injection hdec with hdec
                      subst hdec
                      rw [utf8Encode_cons, ih rest3 (by simp at hlen; omega) cs' hrest]
                      simp only [Bool.and_eq_true, decide_eq_true_eq] at hcond
                      obtain ⟨⟨hlo, hhi⟩, hc2⟩ := hcond
                      have hb2 : 0x80 ≤ b2 ∧ b2 < 0xC0 := by simpa [isCont] using hc2
                      have henc : utf8EncodeChar
                          ((b0 - 0xE0) * 4096 + (b1 - 0x80) * 64 + (b2 - 0x80))
                          = [b0, b1, b2] := by
                        have hb1lo : 0x80 ≤ b1 := by
                          by_cases hE : b0 = 0xE0
                          · rw [if_pos hE] at hlo; omega
                          · rw [if_neg hE] at hlo; exact hlo
                        have hb1hi : b1 ≤ 0xBF := by
                          by_cases hE : b0 = 0xED
                          · rw [if_pos hE] at hhi; omega
                          · rw [if_neg hE] at hhi; exact hhi
                        have hge : 0x800 ≤ (b0 - 0xE0) * 4096 + (b1 - 0x80) * 64 +
                            (b2 - 0x80) := by
                          by_cases hE : b0 = 0xE0
                          · rw [if_pos hE] at hlo; omega
                          · have h2' : 0xE1 ≤ b0 := by omega
                            omega
                        unfold utf8EncodeChar
                        rw [if_neg (by omega), if_neg (by omega), if_pos (by omega)]
                        have e1 : 0xE0 + ((b0 - 0xE0) * 4096 + (b1 - 0x80) * 64 +
                            (b2 - 0x80)) / 4096 = b0 := by omega
                        have e2 : 0x80 + ((b0 - 0xE0) * 4096 + (b1 - 0x80) * 64 +
                            (b2 - 0x80)) / 64 % 64 = b1 := by omega
                        have e3 : 0x80 + ((b0 - 0xE0) * 4096 + (b1 - 0x80) * 64 +
                            (b2 - 0x80)) % 64 = b2 := by omega
                        rw [e1, e2, e3]
                      rw [henc]
                      rfl
                  · rw [if_neg hcond] at hdec; cases hdec
            · rw [if_neg h4] at hdec
              by_cases h5 : b0 < 0xF5
              · rw [if_pos h5] at hdec
                cases rest with
                | nil => exact Option.noConfusion hdec
                | cons b1 rest1 =>
                  cases rest1 with
                  | nil => exact Option.noConfusion hdec
                  | cons b2 rest2 =>
                    cases rest2 with
                    | nil => exact Option.noConfusion hdec
                    | cons b3 rest4 =>
                      replace hdec : (if ((if b0 = 0xF0 then 0x90 else 0x80) ≤ b1 &&
                          b1 ≤ (if b0 = 0xF4 then 0x8F else 0xBF)) && isCont b2 &&
                          isCont b3 then
                          (utf8Decode rest4).map
                            (((b0 - 0xF0) * 262144 + (b1 - 0x80) * 4096 +
                              (b2 - 0x80) * 64 + (b3 - 0x80)) :: ·)
                        else none) = some cs := hdec
                      by_cases hcond : (((if b0 = 0xF0 then 0x90 else 0x80) ≤ b1 &&
                          b1 ≤ (if b0 = 0xF4 then 0x8F else 0xBF)) && isCont b2 &&
                          isCont b3) = true
                      · rw [if_pos hcond] at hdec
                        cases hrest : utf8Decode rest4 with
                        | none => rw [hrest] at hdec; cases hdec
                        | some cs' =>
                          rw [hrest] at hdec
                          replace hdec : some (((b0 - 0xF0) * 262144 + (b1 - 0x80) * 4096 +
                              (b2 - 0x80) * 64 + (b3 - 0x80)) :: cs') = some cs := hdec
                          injection hdec with hdec
                          subst hdec
                          rw [utf8Encode_cons, ih rest4 (by simp at hlen; omega) cs' hrest]
                          simp only [Bool.and_eq_true, decide_eq_true_eq] at hcond
                          obtain ⟨⟨⟨hlo, hhi⟩, hc2⟩, hc3⟩ := hcond
                          have hb2 : 0x80 ≤ b2 ∧ b2 < 0xC0 := by simpa [isCont] using hc2
                          have hb3 : 0x80 ≤ b3 ∧ b3 < 0xC0 := by simpa [isCont] using hc3
                          have henc : utf8EncodeChar ((b0 - 0xF0) * 262144 +
                              (b1 - 0x80) * 4096 + (b2 - 0x80) * 64 + (b3 - 0x80))
                              = [b0, b1, b2, b3] := by
                            have hb1lo : 0x80 ≤ b1 := by
                              by_cases hE : b0 = 0xF0
                              · rw [if_pos hE] at hlo; omega
                              · rw [if_neg hE] at hlo; exact hlo
                            have hb1hi : b1 ≤ 0xBF := by
                              by_cases hE : b0 = 0xF4
                              · rw [if_pos hE] at hhi; omega
                              · rw [if_neg hE] at hhi; exact hhi
                            have hge : 0x10000 ≤ (b0 - 0xF0) * 262144 + (b1 - 0x80) * 4096 +
                                (b2 - 0x80) * 64 + (b3 - 0x80) := by
                              by_cases hE : b0 = 0xF0
                              · rw [if_pos hE] at hlo; omega
                              · have h4' : 0xF1 ≤ b0 := by omega
                                omega
                            unfold utf8EncodeChar
                            rw [if_neg (by omega), if_neg (by omega), if_neg (by omega)]
                            have e1 : 0xF0 + ((b0 - 0xF0) * 262144 + (b1 - 0x80) * 4096 +
                                (b2 - 0x80) * 64 + (b3 - 0x80)) / 262144 = b0 := by omega
                            have e2 : 0x80 + ((b0 - 0xF0) * 262144 + (b1 - 0x80) * 4096 +
                                (b2 - 0x80) * 64 + (b3 - 0x80)) / 4096 % 64 = b1 := by omega
                            have e3 : 0x80 + ((b0 - 0xF0) * 262144 + (b1 - 0x80) * 4096 +
                                (b2 - 0x80) * 64 + (b3 - 0x80)) / 64 % 64 = b2 := by omega
                            have e4 : 0x80 + ((b0 - 0xF0) * 262144 + (b1 - 0x80) * 4096 +
                                (b2 - 0x80) * 64 + (b3 - 0x80)) % 64 = b3 := by omega
                            rw [e1, e2, e3, e4]
                          rw [henc]
                          rfl
                      · rw [if_neg hcond] at hdec; cases hdec
              · rw [if_neg h5] at hdec; cases hdec

/-- A trailing run of exactly one `\n` means the last byte is `\n`. -/
theorem getLast?_of_run_single (l : List Nat) (h : trailingNlRun l = [10]) :
    l.getLast? = some 10 := by
  unfold trailingNlRun at h
  rw [← List.head?_reverse]
  cases hrev : l.reverse with
  | nil => rw [hrev] at h; cases h
  | cons x t =>
    rw [hrev, List.takeWhile_cons] at h
    by_cases hx : (x == 10 || x == 13) = true
    · rw [if_pos hx] at h
      injection h with h1 _
      rw [h1]
      rfl
    · rw [if_neg hx] at h
      cases h

/-- C1 counterexample: an injected region whose language is unknown but
whose slice is `"a\n\n"` comes back as `"a\n"` — `trim_trailing_whitespace`
collapses the trailing newline run, so the bytes are not preserved
verbatim. -/
theorem c1_counterexample :
    processRegion (fun src o => formatRecursive wTriv 1 src o false)
      [97, 10, 10] [97, 10, 10] 80 ⟨⟨0, 3⟩, "x", ⟨[]⟩⟩ = .ok [97, 10] ∧
    sliceBytes [97, 10, 10] 0 3 = [97, 10, 10] ∧ [97, 10] ≠ [97, 10, 10] := by
  refine ⟨?_, rfl, by decide⟩
  decide

/-- C1 (amended): an injected region whose language has no grammar entry
is left byte-identical by the pipeline, provided its slice is valid UTF-8,
its escape set is empty, its computed indent is zero, and its trailing
newline run is empty or a single `\n`; sibling regions are processed
independently of it by construction. -/
theorem c1_unknown_region_language (w : FormatWorld) (m : Nat) (source fmt : List Nat)
    (pw : Nat) (region : InjectedRegion) (cs : List Nat)
    (hg : w.grammars region.lang = false)
    (hesc : region.opts.escapeChars = [])
    (hdec : utf8Decode (sliceBytes fmt region.range.startByte region.range.endByte) = some cs)
    (hcol : columnForByte source region.range.startByte = 0)
    (hmin : minLeadingIndent cs = 0)
    (hrun : trailingNlRun (sliceBytes fmt region.range.startByte region.range.endByte) = [] ∨
      trailingNlRun (sliceBytes fmt region.range.startByte region.range.endByte) = [10]) :
    processRegion (fun src o => formatRecursive w (m + 1) src o false) source fmt pw region
      = .ok (sliceBytes fmt region.range.startByte region.range.endByte) := by
  have hsort : sortEscapeChars region.opts.escapeChars = [] := by
    rw [hesc]
    rfl
  have hind : regionIndent source region.range.startByte cs = 0 := by
    simp [regionIndent, hcol, hmin]
  have hstrip : stripLeadingIndent cs 0 = cs := by
    unfold stripLeadingIndent
    rw [if_pos rfl]
  have henc : utf8Encode cs =
      sliceBytes fmt region.range.startByte region.range.endByte :=
    utf8_encode_decode
      (sliceBytes fmt region.range.startByte region.range.endByte).length _ Nat.le.refl cs hdec
  simp only [processRegion, hdec, hsort, List.isEmpty_nil, if_true, hind, hstrip, henc]
  rw [formatRecursive_unknown_grammar w m
    (sliceBytes fmt region.range.startByte region.range.endByte)
    ⟨childPrintWidth pw 0, region.lang⟩ false hg]
  simp only []
  rcases hrun with hrun | hrun
  · rw [trim_id_of_run_nil _ _ hrun]
    unfold offsetLines
    rw [if_pos rfl]
  · have hlast := getLast?_of_run_single _ hrun
    rw [show ((sliceBytes fmt region.range.startByte region.range.endByte).getLast?
        == some 10) = true from by rw [hlast]; rfl]
    rw [trim_id_of_run_single _ hrun]
    unfold offsetLines
    rw [if_pos rfl]

/-- Witness for C1 at a concrete region `"ab\n"` with unknown language. -/
theorem c1_unknown_region_language_witness :
    processRegion (fun src o => formatRecursive wTriv 1 src o false)
      [97, 98, 10] [97, 98, 10] 80 ⟨⟨0, 3⟩, "x", ⟨[]⟩⟩ = .ok (sliceBytes [97, 98, 10] 0 3) :=
  c1_unknown_region_language wTriv 0 [97, 98, 10] [97, 98, 10] 80 ⟨⟨0, 3⟩, "x", ⟨[]⟩⟩
    [97, 98, 10] rfl rfl (by decide) (by decide) (by decide) (Or.inr (by decide))

/-- Removing a path makes it unreadable. -/
theorem fsRead_fsRemove (fs : FsState) (p : String) : fsRead (fsRemove fs p) p = none := by
  unfold fsRead fsRemove
  induction fs with
  | nil => rfl
  | cons e fs ih =>
    by_cases he : e.1 = p
    · rw [List.filter_cons, if_neg (by simpa using he)]
      exact ih
    · rw [List.filter_cons, if_pos (by simpa using he)]
      rw [List.find?_cons_of_neg _ (by simpa using he)]
      exact ih

/-- Writing a path makes it readable with the written contents. -/
theorem fsRead_fsWrite (fs : FsState) (p : String) (c : List Nat) :
    fsRead (fsWrite fs p c) p = some c := by
  unfold fsRead fsWrite
  rw [List.find?_cons_of_pos _ (by simp)]
  rfl

/-- C4 counterexample: in file mode, when spawning the command fails, the
function returns the error without deleting the temp file — the
`fs::remove_file` call sits after every fallible step, so no error path
reaches it. -/
theorem c4_counterexample :
    (apiFormat wC4 specC4 [97] ⟨80, "L"⟩ []).2 = .error .ioError ∧
    fsRead (apiFormat wC4 specC4 [97] ⟨80, "L"⟩ []).1 (uniqueTempFile wC4) = some [97] := by
  constructor
  · rfl
  · decide

/-- File-mode characterization of `apiFormat`: the temp file is written,
the command spawned with `$file` substituted, and the result read back;
`fs::remove_file` runs only on the fully successful path. -/
theorem apiFormat_file_mode (w : ApiWorld) (spec : FormatterSpec) (source : List Nat)
    (opts : FormatOpts) (fs0 : FsState)
    (hfile : spec.stdin = some false) (hw : w.writeOk = true) :
    apiFormat w spec source opts fs0 =
      (match w.spawn spec.cmd (templateArgs spec opts (uniqueTempFile w)) []
          (fsWrite fs0 (uniqueTempFile w) source) with
       | .error e => (fsWrite fs0 (uniqueTempFile w) source, .error e)
       | .ok (fs2, output) =>
         if !output.statusSuccess then (fs2, .error .formatterFailed)
         else if spec.failOnStderr.getD false && !output.stderr.isEmpty then
           (fs2, .error .formatterFailed)
         else
           match fsRead fs2 (uniqueTempFile w) with
           | none => (fs2, .error .ioError)
           | some contents => (fsRemove fs2 (uniqueTempFile w), .ok contents)) := by
  simp only [apiFormat, hfile, Option.getD_some, hw]
  rw [if_neg (by simp)]
  simp only [Bool.false_eq_true, if_false, Option.getD_some, Bool.false_and,
    Bool.and_eq_true, reduceIte]

/-- C4 (amended): in file mode the dispatcher writes the source to the
uniquely named temp file, substitutes its path for `$file`, runs the
command, reads the file back as the result, and deletes the temp file on
the fully successful exit path; on every error exit path (spawn failure,
non-zero exit, `fail_on_stderr`, read failure) it returns without
deleting, so the temp file is still present whenever the spawned command
itself preserved it. -/
theorem c4_temp_file_lifecycle (w : ApiWorld) (spec : FormatterSpec) (source : List Nat)
    (opts : FormatOpts) (fs0 : FsState)
    (hfile : spec.stdin = some false) (hw : w.writeOk = true) :
    (∀ fs' res, apiFormat w spec source opts fs0 = (fs', .ok res) →
      fsRead fs' (uniqueTempFile w) = none ∧
      ∃ fs2 out, w.spawn spec.cmd (templateArgs spec opts (uniqueTempFile w)) []
          (fsWrite fs0 (uniqueTempFile w) source) = .ok (fs2, out) ∧
        out.statusSuccess = true ∧ fsRead fs2 (uniqueTempFile w) = some res ∧
        fs' = fsRemove fs2 (uniqueTempFile w)) ∧
    ((∀ args stdinData fs fsx out, w.spawn spec.cmd args stdinData fs = .ok (fsx, out) →
        fsRead fsx (uniqueTempFile w) = fsRead fs (uniqueTempFile w)) →
      ∀ fs' e, apiFormat w spec source opts fs0 = (fs', .error e) →
      fsRead fs' (uniqueTempFile w) = some source) := by
  rw [apiFormat_file_mode w spec source opts fs0 hfile hw]
  constructor
  · intro fs' res h
    split at h
    · injection h with h1 h2
      cases h2
    · rename_i fs2 output hsp
      split at h
      · injection h with h1 h2
        cases h2
      · split at h
        · injection h with h1 h2
          cases h2
        · rename_i hst hstderr
          split at h
          · injection h with h1 h2
            cases h2
          · rename_i contents hrd
            injection h with h1 h2
            injection h2 with h2
            subst h1
            subst h2
            refine ⟨fsRead_fsRemove fs2 (uniqueTempFile w), fs2, output, hsp, ?_, hrd, rfl⟩
            simpa using hst
  · intro hpres fs' e h
    split at h
    · rename_i e' hsp
      injection h with h1 h2
      subst h1
      exact fsRead_fsWrite fs0 (uniqueTempFile w) source
    · rename_i fs2 output hsp
      have hkeep : fsRead fs2 (uniqueTempFile w) = some source := by
        rw [hpres _ _ _ _ _ hsp]
        exact fsRead_fsWrite fs0 (uniqueTempFile w) source
      split at h
      · injection h with h1 h2
        subst h1
        exact hkeep
      · split at h
        · injection h with h1 h2
          subst h1
          exact hkeep
        · split at h
          · rename_i hrd
            rw [hkeep] at hrd
            cases hrd
          · injection h with h1 h2
            cases h2

/-- Witness for C4: a run whose spawn succeeds and preserves the file
system deletes its temp file. -/
theorem c4_temp_file_lifecycle_witness :
    fsRead ([] : FsState) (uniqueTempFile wC4ok) = none :=
  ((c4_temp_file_lifecycle wC4ok specC4 [97] ⟨80, "L"⟩ [] rfl rfl).1
    [] [97] (by decide)).1

/-- Equation: a protected pair `\c` is rewritten to `c`. -/
theorem unescChar_cons₂_pos (c : Nat) (t : List Nat) :
    unescChar c (92 :: c :: t) = c :: unescChar c t := by
  simp [unescChar]

/-- Equation: any other two-character head is copied. -/
theorem unescChar_cons₂_neg (c x y : Nat) (t : List Nat) (h : ¬(x = 92 ∧ y = c)) :
    unescChar c (x :: y :: t) = x :: unescChar c (y :: t) := by
  simp only [unescChar]
  rw [if_neg h]

/-- A head other than a backslash is always copied by `unescChar`. -/
theorem unescChar_cons_ne (c x : Nat) (t : List Nat) (hx : x ≠ 92) :
    unescChar c (x :: t) = x :: unescChar c t := by
  cases t with
  | nil => rfl
  | cons y t' => exact unescChar_cons₂_neg c x y t' (fun hc => hx hc.1)

/-- Unfolding `escChar` over a cons. -/
theorem escChar_cons (c x : Nat) (s : List Nat) :
    escChar c (x :: s) = (if x = c then [92, c] else [x]) ++ escChar c s := by
  simp [escChar]

/-- `escChar` of a non-empty string is non-empty, starting with `\` or the
original head. -/
theorem escChar_head (c x : Nat) (s : List Nat) :
    (escChar c (x :: s)).head? = some (if x = c then 92 else x) := by
  rw [escChar_cons]
  by_cases hx : x = c
  · rw [if_pos hx, if_pos hx]
    rfl
  · rw [if_neg hx, if_neg hx]
    rfl

/-- `replaceGoF` with pattern `\c` computes `unescChar` (fuel form). -/
theorem replaceGoF_unesc (c : Nat) : ∀ (fuel : Nat) (s : List Nat), s.length ≤ fuel →
    replaceGoF [92, c] [c] fuel s = unescChar c s := by
  intro fuel
  induction fuel with
  | zero =>
    intro s h
    have hs : s = [] := List.length_eq_zero.mp (Nat.le_zero.mp h)
    subst hs
    rfl
  | succ fuel ih =>
    intro s h
    cases s with
    | nil => rfl
    | cons x rest =>
      cases rest with
      | nil =>
        have hpre : ([92, c] : List Nat).isPrefixOf [x] = false := by
          simp [List.isPrefixOf]
        simp only [replaceGoF, hpre, Bool.false_eq_true, if_false]
        rw [ih [] (Nat.zero_le _)]
        rfl
      | cons y rest' =>
        by_cases hxy : x = 92 ∧ y = c
        · obtain ⟨hx, hy⟩ := hxy
          subst hx
          rw [hy]
          have hpre : ([92, c] : List Nat).isPrefixOf (92 :: c :: rest') = true := by
            simp [List.isPrefixOf]
          simp only [replaceGoF, hpre, if_true]
          rw [show List.drop (([92, c] : List Nat).length - 1) (c :: rest') = rest' from rfl]
          rw [unescChar_cons₂_pos, ih rest' (by simp at h; omega)]
          rfl
        · have hpre : ([92, c] : List Nat).isPrefixOf (x :: y :: rest') = false := by
            simp only [List.isPrefixOf, Bool.and_eq_false_iff, beq_eq_false_iff_ne]
            by_cases hx : x = 92
            · subst hx
              refine Or.inr (Or.inl ?_)
              intro hc
              exact hxy ⟨rfl, hc.symm⟩
            · exact Or.inl (fun hc => hx hc.symm)
          simp only [replaceGoF, hpre, Bool.false_eq_true, if_false]
          rw [unescChar_cons₂_neg c x y rest' hxy,
            ih (y :: rest') (by simp only [List.length_cons] at h ⊢; omega)]

/-- `str::replace` of `\c` by `c` is the single pass `unescChar`. -/
theorem replaceAll_unesc (c : Nat) (s : List Nat) :
    replaceAll s [92, c] [c] = unescChar c s := by
  unfold replaceAll
  rw [show ([92, c] : List Nat).isEmpty = false from rfl]
  simp only [Bool.false_eq_true, if_false]
  exact replaceGoF_unesc c s.length s Nat.le.refl

/-- `replaceGoF` with single-character pattern `c` computes `escChar`
(fuel form). -/
theorem replaceGoF_esc (c : Nat) : ∀ (fuel : Nat) (s : List Nat), s.length ≤ fuel →
    replaceGoF [c] [92, c] fuel s = escChar c s := by
  intro fuel
  induction fuel with
  | zero =>
    intro s h
    have hs : s = [] := List.length_eq_zero.mp (Nat.le_zero.mp h)
    subst hs
    rfl
  | succ fuel ih =>
    intro s h
    cases s with
    | nil => rfl
    | cons x rest =>
      by_cases hx : x = c
      · have hpre : ([c] : List Nat).isPrefixOf (x :: rest) = true := by
          simp [List.isPrefixOf, hx]
        simp only [replaceGoF, hpre, if_true]
        rw [show List.drop (([c] : List Nat).length - 1) rest = rest from rfl]
        rw [ih rest (by simp only [List.length_cons] at h; omega)]
        rw [escChar_cons, if_pos hx]
      · have hpre : ([c] : List Nat).isPrefixOf (x :: rest) = false := by
          simp only [List.isPrefixOf, Bool.and_eq_false_iff, beq_eq_false_iff_ne]
          exact Or.inl (fun hc => hx hc.symm)
        simp only [replaceGoF, hpre, Bool.false_eq_true, if_false]
        rw [ih rest (by simp only [List.length_cons] at h; omega)]
        rw [escChar_cons, if_neg hx]
        rfl

/-- `str::replace` of `c` by `\c` is the single pass `escChar`. -/
theorem replaceAll_esc (c : Nat) (s : List Nat) :
    replaceAll s [c] [92, c] = escChar c s := by
  unfold replaceAll
  rw [show ([c] : List Nat).isEmpty = false from rfl]
  simp only [Bool.false_eq_true, if_false]
  exact replaceGoF_esc c s.length s Nat.le.refl

/-- Escaping one character and unescaping another (both distinct and
distinct from the backslash) commute. -/
theorem unesc_esc_comm (c d : Nat) (hcd : c ≠ d) (hc : c ≠ 92) (hd : d ≠ 92) :
    ∀ y : List Nat, unescChar d (escChar c y) = escChar c (unescChar d y)
  | [] => rfl
  | [x] => by
    by_cases hx : x = c
    · rw [hx]
      have h1 : escChar c [c] = [92, c] := by simp [escChar]
      have h2 : unescChar d [c] = [c] := rfl
      rw [h1, h2, h1]
      rw [unescChar_cons₂_neg d 92 c [] (fun h => hcd h.2)]
      rw [h2]
    · rw [show escChar c [x] = [x] from by simp [escChar, hx]]
      rw [show unescChar d [x] = [x] from rfl]
      rw [show escChar c [x] = [x] from by simp [escChar, hx]]
  | x :: y :: t => by
    by_cases hxy : x = 92 ∧ y = d
    · obtain ⟨hx, hy⟩ := hxy
      subst hx
      rw [hy]
      rw [escChar_cons, if_neg (fun h => hc h.symm)]
      rw [escChar_cons, if_neg (fun h => hcd h.symm)]
      rw [List.singleton_append, List.singleton_append]
      rw [unescChar_cons₂_pos]
      rw [unesc_esc_comm c d hcd hc hd t]
      rw [unescChar_cons₂_pos]
      rw [escChar_cons, if_neg (fun h => hcd h.symm)]
      rfl
    · rw [unescChar_cons₂_neg d x y t hxy]
      rw [escChar_cons]
      have ihy := unesc_esc_comm c d hcd hc hd (y :: t)
      by_cases hx : x = c
      · rw [hx]
        rw [if_pos rfl]
        rw [show ([92, c] : List Nat) ++ escChar c (y :: t) =
          92 :: c :: escChar c (y :: t) from rfl]
        rw [unescChar_cons₂_neg d 92 c _ (fun h => hcd h.2)]
        rw [unescChar_cons_ne d c _ hc]
        rw [ihy]
        rw [escChar_cons, if_pos rfl]
        rfl
      · rw [if_neg hx, List.singleton_append]
        by_cases hx92 : x = 92
        · subst hx92
          cases hL : escChar c (y :: t) with
          | nil =>
            have := escChar_head c y t
            rw [hL] at this
            cases this
          | cons z L' =>
            have hz : z = if y = c then 92 else y := by
              have hh := escChar_head c y t
              rw [hL] at hh
              injection hh
            have hznd : ¬(92 = 92 ∧ z = d) := by
              intro hcon
              rw [hz] at hcon
              by_cases hyc : y = c
              · rw [if_pos hyc] at hcon
                exact hd hcon.2.symm
              · rw [if_neg hyc] at hcon
                exact hxy ⟨rfl, hcon.2⟩
            rw [unescChar_cons₂_neg d 92 z L' hznd]
            rw [← hL, ihy]
            rw [escChar_cons, if_neg hx, List.singleton_append]
        · rw [unescChar_cons_ne d x _ hx92]
          rw [ihy]
          rw [escChar_cons, if_neg hx, List.singleton_append]

/-- The previous-character context of `escWF` is irrelevant when it is
not a backslash. -/
theorem escWF_shift (c a : Nat) (ha : a ≠ 92) : ∀ t : List Nat,
    escWF c (some a) t = true → escWF c none t = true
  | [], _ => rfl
  | x :: t, h => by
    simp only [escWF, Bool.and_eq_true, Bool.or_eq_true, decide_eq_true_eq] at h ⊢
    obtain ⟨h1, h2⟩ := h
    refine ⟨?_, h2⟩
    rcases h1 with h1 | h1
    · exact Or.inl h1
    · exact absurd (Option.some.inj h1) ha

/-- Round trip for a single escape character: re-escaping the unescaped
string restores it, when every occurrence of `c` was escaped. -/
theorem esc_unesc_single (c : Nat) (hc : c ≠ 92) : ∀ s : List Nat,
    escWF c none s = true → escChar c (unescChar c s) = s
  | [], _ => rfl
  | [x], h => by
    have hx : x ≠ c := by
      simp only [escWF, Bool.and_eq_true, Bool.or_eq_true, decide_eq_true_eq] at h
      rcases h.1 with h1 | h1
      · exact h1
      · exact Option.noConfusion h1
    rw [show unescChar c [x] = [x] from rfl, escChar_cons, if_neg hx]
    rfl
  | x :: y :: t, h => by
    simp only [escWF, Bool.and_eq_true, Bool.or_eq_true, decide_eq_true_eq] at h
    obtain ⟨hx', hy', hwt⟩ := h
    have hx : x ≠ c := by
      rcases hx' with h1 | h1
      · exact h1
      · exact Option.noConfusion h1
    by_cases hxy : x = 92 ∧ y = c
    · obtain ⟨hx92, hyc⟩ := hxy
      subst hx92
      rw [hyc]
      rw [unescChar_cons₂_pos]
      rw [escChar_cons, if_pos rfl]
      rw [esc_unesc_single c hc t (escWF_shift c c hc t (hyc ▸ hwt))]
      rfl
    · have hy : y ≠ c := by
        rcases hy' with h1 | h1
        · exact h1
        · intro hyc
          exact hxy ⟨Option.some.inj h1, hyc⟩
      rw [unescChar_cons₂_neg c x y t hxy]
      rw [escChar_cons, if_neg hx]
      have hnext : escWF c none (y :: t) = true := by
        simp only [escWF, Bool.and_eq_true, Bool.or_eq_true, decide_eq_true_eq]
        exact ⟨Or.inl hy, hwt⟩
      rw [esc_unesc_single c hc (y :: t) hnext]
      rfl

/-- If every `92` in `s` must be preceded by a backslash and the context
is not a backslash, then `s` contains no backslash at all. -/
theorem escWF_no_bs (prev : Option Nat) (hp : prev ≠ some 92) :
    ∀ s : List Nat, escWF 92 prev s = true → 92 ∉ s
  | [], _ => by simp
  | x :: t, h => by
    simp only [escWF, Bool.and_eq_true, Bool.or_eq_true, decide_eq_true_eq] at h
    obtain ⟨h1, h2⟩ := h
    have hx : x ≠ 92 := by
      rcases h1 with h1 | h1
      · exact h1
      · exact absurd h1 hp
    simp only [List.mem_cons, not_or]
    exact ⟨fun h => hx h.symm,
      escWF_no_bs (some x) (fun hc => hx (Option.some.inj hc)) t h2⟩

/-- On a backslash-free string, one unescape step is the identity. -/
theorem unescChar_id_of_no_bs (c : Nat) : ∀ s : List Nat, 92 ∉ s → unescChar c s = s
  | [], _ => rfl
  | [_], _ => rfl
  | x :: y :: t, h => by
    simp only [List.mem_cons, not_or] at h
    obtain ⟨hx, hy, ht⟩ := h
    rw [unescChar_cons₂_neg c x y t (fun hc => hx hc.1.symm)]
    rw [unescChar_id_of_no_bs c (y :: t)
      (by simp only [List.mem_cons, not_or]; exact ⟨hy, ht⟩)]

/-- On a backslash-free string in a non-backslash context, `escWF c`
forces `c` to be absent. -/
theorem escWF_no_c_of_no_bs (c : Nat) : ∀ (s : List Nat) (prev : Option Nat),
    prev ≠ some 92 → 92 ∉ s → escWF c prev s = true → c ∉ s
  | [], _, _, _, _ => by simp
  | x :: t, prev, hp, h92, h => by
    simp only [List.mem_cons, not_or] at h92
    obtain ⟨h92x, h92t⟩ := h92
    simp only [escWF, Bool.and_eq_true, Bool.or_eq_true, decide_eq_true_eq] at h
    obtain ⟨h1, h2⟩ := h
    have hx : x ≠ c := by
      rcases h1 with h1 | h1
      · exact h1
      · exact absurd h1 hp
    simp only [List.mem_cons, not_or]
    refine ⟨fun hcx => hx hcx.symm, ?_⟩
    exact escWF_no_c_of_no_bs c t (some x)
      (fun hc => h92x (Option.some.inj hc).symm) h92t h2

/-- On a `c`-free string, one escape step is the identity. -/
theorem escChar_id_of_no_c (c : Nat) : ∀ s : List Nat, c ∉ s → escChar c s = s
  | [], _ => rfl
  | x :: t, h => by
    simp only [List.mem_cons, not_or] at h
    rw [escChar_cons, if_neg (fun hc => h.1 hc.symm)]
    rw [escChar_id_of_no_c c t h.2]
    rfl

/-- A fold whose every step fixes `s` returns `s`. -/
theorem foldl_fixed_of_id (f : List Nat → Nat → List Nat) (s : List Nat) :
    ∀ L : List Nat, (∀ c ∈ L, f s c = s) → L.foldl f s = s
  | [], _ => rfl
  | c :: L, h => by
    rw [List.foldl_cons, h c (List.mem_cons_self c L)]
    exact foldl_fixed_of_id f s L (fun d hd => h d (List.mem_cons_of_mem c hd))

/-- Indexing is the head of the dropped suffix. -/
theorem getElem?_eq_head_drop : ∀ (s : List Nat) (i : Nat), s[i]? = (s.drop i).head?
  | [], i => by cases i <;> rfl
  | _ :: _, 0 => by simp
  | x :: t, i + 1 => by
    rw [List.getElem?_cons_succ]
    exact getElem?_eq_head_drop t i

/-- A character at position `i` is a singleton substring occurrence. -/
theorem occursAt_of_getElem (s : List Nat) (ch i : Nat) (h : s[i]? = some ch) :
    occursAt s [ch] i = true := by
  unfold occursAt
  rw [getElem?_eq_head_drop] at h
  cases hd : s.drop i with
  | nil =>
    rw [hd] at h
    exact Option.noConfusion h
  | cons b bs =>
    rw [hd] at h
    have hb : b = ch := Option.some.inj h
    show (ch == b && List.isPrefixOf [] bs) = true
    rw [hb]
    simp

/-- A position witnessing `s[i]? = some v` is in bounds. -/
theorem lt_length_of_getElem_some (s : List Nat) (i v : Nat) (h : s[i]? = some v) :
    i < s.length := by
  by_contra hge
  rw [List.getElem?_eq_none (Nat.le_of_not_lt hge)] at h
  exact Option.noConfusion h

/-- Unfolding the extractor precondition at one occurrence. -/
theorem escapedPre_spec (s : List Nat) (C : List (List Nat)) (x : List Nat)
    (hx : x ∈ C) (hpre : escapedPre s C = true) (i : Nat) (hi : i < s.length)
    (hocc : occursAt s x i = true) : 0 < i ∧ s[i - 1]? = some 92 := by
  unfold escapedPre at hpre
  rw [List.all_eq_true] at hpre
  have h1 := hpre i (List.mem_range.mpr hi)
  rw [List.all_eq_true] at h1
  have h2 := h1 x hx
  rw [hocc] at h2
  simp only [Bool.not_true, Bool.false_or, Bool.and_eq_true, decide_eq_true_eq,
    beq_iff_eq] at h2
  exact h2

/-- Pointwise backslash protection implies `escWF`. -/
theorem escWF_of_pointwise (ch : Nat) : ∀ (s : List Nat) (prev : Option Nat),
    (s[0]? = some ch → prev = some 92) →
    (∀ j : Nat, s[j + 1]? = some ch → s[j]? = some 92) →
    escWF ch prev s = true
  | [], _, _, _ => rfl
  | x :: t, prev, h0, h1 => by
    simp only [escWF, Bool.and_eq_true, Bool.or_eq_true, decide_eq_true_eq]
    refine ⟨?_, ?_⟩
    · by_cases hx : x = ch
      · exact Or.inr (h0 (by rw [List.getElem?_cons_zero, hx]))
      · exact Or.inl hx
    · apply escWF_of_pointwise ch t (some x)
      · intro hh
        have h := h1 0 (by rw [List.getElem?_cons_succ]; exact hh)
        rw [List.getElem?_cons_zero] at h
        exact h
      · intro j hj
        have h := h1 (j + 1) (by rw [List.getElem?_cons_succ]; exact hj)
        rw [List.getElem?_cons_succ] at h
        exact h

/-- The extractor precondition yields `escWF` for each single-character
escape char of the set. -/
theorem escWF_of_escapedPre (s : List Nat) (C : List (List Nat)) (ch : Nat)
    (hmem : [ch] ∈ C) (hpre : escapedPre s C = true) : escWF ch none s = true := by
  apply escWF_of_pointwise
  · intro h0
    have hi : 0 < s.length := lt_length_of_getElem_some s 0 ch h0
    have h := escapedPre_spec s C [ch] hmem hpre 0 hi (occursAt_of_getElem s ch 0 h0)
    exact absurd h.1 (by decide)
  · intro j hj
    have hi : j + 1 < s.length := lt_length_of_getElem_some s (j + 1) ch hj
    have h := escapedPre_spec s C [ch] hmem hpre (j + 1) hi
      (occursAt_of_getElem s ch (j + 1) hj)
    have h2 := h.2
    rw [Nat.add_sub_cancel] at h2
    exact h2

/-- A one-character string is the singleton of its head. -/
theorem eq_singleton_of_length_one (x : List Nat) (h : x.length = 1) :
    x = [x.headD 0] := by
  cases x with
  | nil => exact absurd h (by decide)
  | cons a t =>
    cases t with
    | nil => rfl
    | cons b t' =>
      rw [List.length_cons, List.length_cons] at h
      omega

/-- A list of one-character strings is the singleton image of its heads. -/
theorem map_headD_singleton : ∀ (CS : List (List Nat)), (∀ x ∈ CS, x.length = 1) →
    (CS.map (fun x => x.headD 0)).map (fun c => [c]) = CS
  | [], _ => rfl
  | x :: CS, h => by
    rw [List.map_cons, List.map_cons]
    rw [map_headD_singleton CS (fun y hy => h y (List.mem_cons_of_mem x hy))]
    rw [← eq_singleton_of_length_one x (h x (List.mem_cons_self x CS))]

/-- `unescape_text` on a set of single-character escape chars is a fold of
single-pass unescape steps. -/
theorem fold_unesc : ∀ (L : List Nat) (s : List Nat),
    unescapeText s (L.map (fun c => [c])) = L.foldl (fun r e => unescChar e r) s
  | [], _ => rfl
  | c :: L, s => by
    have h1 : unescapeText s ((c :: L).map (fun c => [c]))
        = unescapeText (replaceAll s [92, c] [c]) (L.map (fun c => [c])) := rfl
    rw [h1, replaceAll_unesc, fold_unesc L (unescChar c s)]
    rfl

/-- `escape_text` on a set of single-character escape chars is a fold of
single-pass escape steps. -/
theorem fold_esc : ∀ (L : List Nat) (s : List Nat),
    escapeText s (L.map (fun c => [c])) = L.foldl (fun r e => escChar e r) s
  | [], _ => rfl
  | c :: L, s => by
    have h1 : escapeText s ((c :: L).map (fun c => [c]))
        = escapeText (replaceAll s [c] [92, c]) (L.map (fun c => [c])) := rfl
    rw [h1, replaceAll_esc, fold_esc L (escChar c s)]
    rfl

/-- Escaping one character commutes with a fold of unescape steps over
characters distinct from it and from the backslash. -/
theorem escChar_foldU (c : Nat) (hc : c ≠ 92) : ∀ (L : List Nat), c ∉ L → 92 ∉ L →
    ∀ u : List Nat, escChar c (L.foldl (fun r e => unescChar e r) u)
      = L.foldl (fun r e => unescChar e r) (escChar c u)
  | [], _, _, _ => rfl
  | d :: L, hcL, h92L, u => by
    simp only [List.mem_cons, not_or] at hcL h92L
    obtain ⟨hcd, hcL'⟩ := hcL
    obtain ⟨hd, h92L'⟩ := h92L
    rw [List.foldl_cons, List.foldl_cons]
    rw [escChar_foldU c hc L hcL' h92L' (unescChar d u)]
    rw [← unesc_esc_comm c d hcd hc (Ne.symm hd) u]

/-- Round trip of the two folds when the backslash is not an escape char. -/
theorem roundtrip_fold_no_bs : ∀ (L : List Nat), 92 ∉ L → L.Nodup → ∀ s : List Nat,
    (∀ c ∈ L, escWF c none s = true) →
    L.foldl (fun r e => escChar e r) (L.foldl (fun r e => unescChar e r) s) = s
  | [], _, _, _, _ => rfl
  | c :: L, h92, hnd, s, hwf => by
    simp only [List.mem_cons, not_or] at h92
    obtain ⟨hc92, h92L⟩ := h92
    have hcne : c ≠ 92 := fun h => hc92 h.symm
    have hcL : c ∉ L := (List.nodup_cons.mp hnd).1
    have hndL : L.Nodup := (List.nodup_cons.mp hnd).2
    rw [List.foldl_cons, List.foldl_cons]
    rw [escChar_foldU c hcne L hcL h92L (unescChar c s)]
    rw [esc_unesc_single c hcne s (hwf c (List.mem_cons_self c L))]
    exact roundtrip_fold_no_bs L h92L hndL s
      (fun d hd => hwf d (List.mem_cons_of_mem c hd))

/-- Round trip of the two folds: unescaping then escaping a distinct set of
escape characters, in the same order, restores any string in which every
occurrence of each escape character was escaped. -/
theorem roundtrip_fold (L : List Nat) (hnd : L.Nodup) (s : List Nat)
    (hwf : ∀ c ∈ L, escWF c none s = true) :
    L.foldl (fun r e => escChar e r) (L.foldl (fun r e => unescChar e r) s) = s := by
  by_cases h92 : 92 ∈ L
  · have hs92 : 92 ∉ s := escWF_no_bs none (fun h => Option.noConfusion h) s (hwf 92 h92)
    rw [foldl_fixed_of_id _ s L (fun c _ => unescChar_id_of_no_bs c s hs92)]
    exact foldl_fixed_of_id _ s L (fun c hc => escChar_id_of_no_c c s
      (escWF_no_c_of_no_bs c s none (fun h => Option.noConfusion h) hs92 (hwf c hc)))
  · exact roundtrip_fold_no_bs L h92 hnd s hwf

/-- C2: with the escape set sorted by `sort_escape_chars` (descending
byte length, lexicographic tie-break) and the same order used in both
directions: an empty set makes `unescape_text` and `escape_text` the
identity; and for a set of distinct single-character escape chars,
`escape_text` after `unescape_text` restores every string satisfying the
extractor precondition that each occurrence of each escape char is
backslash-escaped. (The claim's unrestricted version over arbitrary
multi-character escape sets is refuted by `c2_counterexample`.) -/
theorem c2_escape_roundtrip :
    (∀ s : List Nat, unescapeText s (sortEscapeChars []) = s ∧
      escapeText s (sortEscapeChars []) = s) ∧
    (∀ (C : List (List Nat)) (s : List Nat), (∀ c ∈ C, c.length = 1) → C.Nodup →
      escapedPre s C = true →
      escapeText (unescapeText s (sortEscapeChars C)) (sortEscapeChars C) = s) := by
  constructor
  · intro s
    exact ⟨rfl, rfl⟩
  · intro C s hlen hnd hpre
    have hperm : List.Perm (sortEscapeChars C) C := List.perm_insertionSort escLe C
    have hsub : ∀ x ∈ sortEscapeChars C, x ∈ C := fun x hx => hperm.subset hx
    have hlen' : ∀ x ∈ sortEscapeChars C, x.length = 1 := fun x hx => hlen x (hsub x hx)
    have hnd' : (sortEscapeChars C).Nodup := hperm.nodup_iff.mpr hnd
    rw [← map_headD_singleton (sortEscapeChars C) hlen']
    rw [fold_unesc, fold_esc]
    apply roundtrip_fold
    · apply List.Nodup.map_on ?_ hnd'
      intro x hx y hy hxy
      rw [eq_singleton_of_length_one x (hlen' x hx),
        eq_singleton_of_length_one y (hlen' y hy), hxy]
    · intro c hc
      rw [List.mem_map] at hc
      obtain ⟨x, hxmem, hxc⟩ := hc
      have hxs := eq_singleton_of_length_one x (hlen' x hxmem)
      rw [hxc] at hxs
      exact escWF_of_escapedPre s C c (hxs ▸ hsub x hxmem) hpre

/-- C2 counterexample: for the escape set containing the two overlapping
multi-character strings "<" and "<<", the string "\<\<" satisfies the
extractor precondition, yet escape after unescape yields "\\<\<", not the
original — the round trip fails for general escape sets. -/
theorem c2_counterexample :
    escapedPre [92, 60, 92, 60] [[60], [60, 60]] = true ∧
    escapeText (unescapeText [92, 60, 92, 60] (sortEscapeChars [[60], [60, 60]]))
      (sortEscapeChars [[60], [60, 60]]) ≠ [92, 60, 92, 60] := by
  decide

/-- Witness for C2 at the concrete escape set containing only "a" and the
source "\a". -/
theorem c2_escape_roundtrip_witness :
    escapedPre [92, 97] [[97]] = true ∧
    escapeText (unescapeText [92, 97] (sortEscapeChars [[97]]))
      (sortEscapeChars [[97]]) = [92, 97] :=
  ⟨by decide, c2_escape_roundtrip.2 [[97]] [92, 97] (by decide) (by decide) (by decide)⟩
